import Mathlib

/-!
# Tornet: chunk service and name chain

A shallow embedding of `services/chunk_service.cpp` and
`include/tornet/name_chain.hpp`.

Bytes and digests are natural numbers.  A digest stands for the unsigned
160-bit value of a `sha1`, compared the way the `sha1` comparison operators
compare it.  The hash, the block cipher and the binary codec are libraries
that the sources only call; they enter every definition as the fields of a
record of primitives.
-/

namespace Tornet

abbrev Byte := Nat

abbrev Digest := Nat

/-! ## Name chain: data -/

/-- Header shared by all name transactions, fields as reflected:
`(base)(nonce)(type)(signature)`. -/
structure name_trx_header where
  base : Digest
  nonce : Nat
  type : Nat
  signature : List Byte
deriving DecidableEq, Repr

/-- Any of the reflected transaction records: a `head` followed by the fields
of the variant, kept as a payload of type `β`.  It stands for the template
parameter `Trx`. -/
structure name_trx (β : Type) where
  head : name_trx_header
  body : β
deriving DecidableEq, Repr

/-- Block record `name_block`. -/
structure name_block where
  prev_block_id : Digest
  utc_us : Nat
  block_num : Nat
  transactions : List Digest
  gen_transaction : Digest
deriving DecidableEq, Repr

/-- Library primitives used by the name chain: the `fc::sha1` digest of a byte
string and the `fc::raw::pack` encodings of the values that are hashed. -/
structure ChainPrims (β : Type) where
  sha1 : List Byte → Digest
  pack_sha1 : Digest → List Byte
  pack_time : Nat → List Byte
  pack_u64 : Nat → List Byte
  pack_sha1_vec : List Digest → List Byte
  pack_trx : name_trx β → List Byte

/-! ## Name chain: operations -/

/-- Method `name_block::base_hash`: one encoder fed with the four header
fields in order. -/
def name_block.base_hash {β : Type} (C : ChainPrims β) (b : name_block) : Digest :=
  C.sha1 (C.pack_sha1 b.prev_block_id ++ C.pack_time b.utc_us
    ++ C.pack_u64 b.block_num ++ C.pack_sha1_vec b.transactions)

/-- Method `name_block::difficulty`. -/
def name_block.difficulty (b : name_block) : Nat :=
  b.transactions.length

/-- Function `validate_trx_hash`: the digest of the encoded transaction is
below `thresh`. -/
def validate_trx_hash {β : Type} (C : ChainPrims β) (tran : name_trx β)
    (thresh : Digest) : Bool :=
  decide (C.sha1 (C.pack_trx tran) < thresh)

/-- The `for` loop at the end of `validate_block_hash`: the first transaction
id that compares greater than `trx_thresh` makes it return false. -/
def validate_block_hash_loop (trx_thresh : Digest) : List Digest → Bool
  | [] => true
  | t :: rest =>
    if t > trx_thresh then false else validate_block_hash_loop trx_thresh rest

/-- Function `validate_block_hash`. -/
def validate_block_hash {β : Type} (C : ChainPrims β) (b : name_block)
    (gen : name_trx β) (block_thresh trx_thresh : Digest) : Bool :=
  if gen.head.base ≠ b.base_hash C then false
  else
    let enc_result := C.sha1 (C.pack_trx gen)
    if b.gen_transaction ≠ enc_result then false
    else if enc_result ≥ block_thresh then false
    else validate_block_hash_loop trx_thresh b.transactions

/-- Assignment to `tran.head.nonce`; every other field is kept. -/
def name_trx.set_nonce {β : Type} (tran : name_trx β) (n : Nat) : name_trx β :=
  { tran with head := { tran.head with nonce := n } }

/-- The `while` loop of `find_nonce`.  `done k` is the value of the volatile
flag at its `k`-th read.  Both `return` statements of the source return
`start`; the transaction is updated in place and is returned next to it.
`none` means the fuel ran out before the loop ended.  The nonce is a 64-bit
counter; it is only incremented while it is below `end_`, so it cannot wrap. -/
def find_nonce_loop {β : Type} (C : ChainPrims β) (start end_ : Nat)
    (thresh : Digest) (done : Nat → Bool) :
    Nat → Nat → name_trx β → Option (Nat × name_trx β)
  | 0, k, tran =>
    if !done k && decide (tran.head.nonce < end_) then
      if validate_trx_hash C tran thresh then some (start, tran) else none
    else some (start, tran)
  | fuel + 1, k, tran =>
    if !done k && decide (tran.head.nonce < end_) then
      if validate_trx_hash C tran thresh then some (start, tran)
      else find_nonce_loop C start end_ thresh done fuel (k + 1)
        (tran.set_nonce (tran.head.nonce + 1))
    else some (start, tran)

/-- Function `find_nonce`: returns the returned value and the transaction as
the call leaves it.  The loop body runs at most `end_ - start` times. -/
def find_nonce {β : Type} (C : ChainPrims β) (tran : name_trx β)
    (start end_ : Nat) (thresh : Digest) (done : Nat → Bool) :
    Option (Nat × name_trx β) :=
  find_nonce_loop C start end_ thresh done (end_ - start) 0 (tran.set_nonce start)

/-! ## Name chain: a small concrete instance -/

/-- A toy digest: a polynomial checksum of the bytes modulo 1009. -/
def demo_sha1 (bytes : List Byte) : Digest :=
  bytes.foldl (fun acc x => (acc * 31 + x) % 1009) 7

/-- Primitives with one number per encoded field and `demo_sha1` as digest. -/
def demo_chain : ChainPrims Unit where
  sha1 := demo_sha1
  pack_sha1 d := [d]
  pack_time t := [t]
  pack_u64 n := [n]
  pack_sha1_vec ds := ds.length :: ds
  pack_trx t := [t.head.base, t.head.nonce, t.head.type] ++ t.head.signature

/-- Transaction whose digests under `demo_chain` for the nonces 0 to 4 are
925, 956, 987, 9 and 40. -/
def demo_trx : name_trx Unit := ⟨⟨16, 0, 1, []⟩, ()⟩

/-- Block with two transaction ids, the first one equal to the transaction
threshold 40 used with it; its base hash under `demo_chain` is 317. -/
def demo_block : name_block := ⟨11, 479000000, 8, [40, 25], 28⟩

/-- Generating transaction of `demo_block`: it commits to the base hash 317
and its digest under `demo_chain` is 28. -/
def demo_gen : name_trx Unit := ⟨⟨317, 14, 1, []⟩, ()⟩

/-- A chain tip generated at second 1000, in microseconds. -/
def demo_tip : name_block := ⟨3, 1000000000, 7, [], 12⟩

/-- Successor of `demo_tip` stamped 479 seconds after it. -/
def demo_early_block : name_block := ⟨11, 1479000000, 8, [25], 35⟩

/-- Generating transaction of `demo_early_block`. -/
def demo_early_gen : name_trx Unit := ⟨⟨431, 28, 1, []⟩, ()⟩

/-- Successor of `demo_tip` stamped in the far future. -/
def demo_future_block : name_block := ⟨11, 1000000000000000000, 8, [25], 28⟩

/-- Generating transaction of `demo_future_block`. -/
def demo_future_gen : name_trx Unit := ⟨⟨675, 15, 1, []⟩, ()⟩

/-! ## Chunk service: data -/

/-- Entry `tornet_file::chunk_data` of a descriptor: the plain size of the
chunk, the digest of its encrypted bytes and its slice hashes. -/
structure chunk_data where
  size : Nat
  id : Digest
  slices : List Nat
deriving DecidableEq, Repr

/-- The descriptor `tornet_file`. -/
structure tornet_file where
  name : List Byte
  size : Nat
  checksum : Digest
  chunks : List chunk_data
deriving DecidableEq, Repr

/-- Modelled from the spec: the record type `tornet::db::publish::record` is
declared outside the sources.  `desired_host_count` and `next_update` are the
fields the code assigns; `host_count` is the observed replica count of the
publish record of the spec.  The fields are wide enough for the values the
code assigns to them. -/
structure publish_record where
  next_update : Nat
  host_count : Nat
  desired_host_count : Nat
deriving DecidableEq, Repr

/-- Errors raised with `TORNET_THROW` in the chunk service, one constructor a
message, plus a failure of the codec while unpacking, a failure of the
transport, and the exhaustion of the fuel of a loop of the model. -/
inductive error where
  | empty_file
  | write_beyond_end
  | error_fetching_chunk
  | file_checksum_mismatch
  | unknown_chunk
  | checksum_mismatch
  | tornet_checksum_mismatch
  | no_data_for_chunk
  | unpack_failed
  | rpc_failed
  | out_of_fuel
deriving DecidableEq, Repr

/-- Library primitives called by the chunk service.

* `sha1` is `scrypt::sha1_hash`, and `sha1_str` the conversion of a digest to
  the string that keys the cipher;
* `bf_encrypt key chain buf` and `bf_decrypt key chain buf` are the CBC passes
  of `scrypt::blowfish` over a buffer: they return the transformed buffer and
  the chain value left behind; `chain0` is the chain value after `start` and
  after `reset_chain`;
  both work in place on the buffer they are given, so the buffer keeps its
  length (`bf_encrypt_length`, `bf_decrypt_length`);
* `super_fast_hash` is the 32-bit slice hash;
* `pack_tornet_file` is `pack_vec` and `pack` on a descriptor,
  `unpack_sha1` and `unpack_tornet_file` are `unpack_vec` reading a digest and
  a descriptor from a byte vector (`none` when the codec throws);
* `new_record` is a default-constructed publish record. -/
structure Prims where
  sha1 : List Byte → Digest
  sha1_str : Digest → List Byte
  chain0 : List Byte
  bf_encrypt : List Byte → List Byte → List Byte → List Byte × List Byte
  bf_decrypt : List Byte → List Byte → List Byte → List Byte × List Byte
  super_fast_hash : List Byte → Nat
  pack_tornet_file : tornet_file → List Byte
  unpack_sha1 : List Byte → Option Digest
  unpack_tornet_file : List Byte → Option tornet_file
  new_record : publish_record
  bf_encrypt_length : ∀ key chain buf, (bf_encrypt key chain buf).1.length = buf.length
  bf_decrypt_length : ∀ key chain buf, (bf_decrypt key chain buf).1.length = buf.length

/-- Modelled from the spec: the object `scrypt::blowfish` is declared outside
the sources.  It holds the key given to `start` and the running CBC chain. -/
structure blowfish where
  key : List Byte
  chain : List Byte
deriving DecidableEq, Repr

/-- Modelled from the spec: `start(key_bytes)` keys the cipher and leaves the
chain at its initial value. -/
def blowfish.start (P : Prims) (key : List Byte) : blowfish :=
  ⟨key, P.chain0⟩

/-- Modelled from the spec: `reset_chain()` puts the chain back to its initial
value. -/
def blowfish.reset_chain (P : Prims) (bf : blowfish) : blowfish :=
  { bf with chain := P.chain0 }

/-- Call `bf.encrypt(buf, n, CBC)`: the buffer after the call and the cipher
with its chain advanced. -/
def blowfish.encrypt (P : Prims) (bf : blowfish) (buf : List Byte) :
    List Byte × blowfish :=
  ((P.bf_encrypt bf.key bf.chain buf).1,
    { bf with chain := (P.bf_encrypt bf.key bf.chain buf).2 })

/-- Call `bf.decrypt(buf, n, CBC)`. -/
def blowfish.decrypt (P : Prims) (bf : blowfish) (buf : List Byte) :
    List Byte × blowfish :=
  ((P.bf_decrypt bf.key bf.chain buf).1,
    { bf with chain := (P.bf_decrypt bf.key bf.chain buf).2 })

/-- Modelled from the spec: a chunk store `tornet::db::chunk` maps a digest to
raw bytes.  The model keeps the `store_chunk` calls newest first; a lookup
returns the bytes stored last under the id. -/
abbrev chunk_db := List (Digest × List Byte)

/-- Modelled from the spec: `store(id, bytes)` writes the bytes under the id. -/
def chunk_db.store_chunk (db : chunk_db) (id : Digest) (data : List Byte) : chunk_db :=
  (id, data) :: db

/-- Modelled from the spec: `fetch_meta(id, meta, touch)` gives the size of the
stored bytes, or fails when the id is unknown. -/
def chunk_db.fetch_meta (db : chunk_db) (id : Digest) : Option Nat :=
  (db.lookup id).map List.length

/-- Modelled from the spec: `fetch(id, out_buf)` fills the buffer with the
stored bytes, or fails when the id is unknown.  A buffer longer than the stored
bytes keeps its tail. -/
def chunk_db.fetch_chunk (db : chunk_db) (id : Digest) (buf : List Byte) :
    Option (List Byte) :=
  (db.lookup id).map (fun data => data.take buf.length ++ buf.drop data.length)

/-- Modelled from the spec: the publish store `tornet::db::publish` maps a
chunk id to its publish record, one record an id. -/
abbrev publish_db := List (Digest × publish_record)

/-- Modelled from the spec: `fetch(id, rec)` of the publish store. -/
def publish_db.fetch (db : publish_db) (id : Digest) : Option publish_record :=
  db.lookup id

/-- Modelled from the spec: `store(id, record)` of the publish store replaces
the record of the id, or adds one when the id has none. -/
def publish_db.store : publish_db → Digest → publish_record → publish_db
  | [], id, r => [(id, r)]
  | e :: rest, id, r =>
    if e.1 = id then (id, r) :: rest else e :: publish_db.store rest id r

/-- Modelled from the spec: `fetch_next(id, rec)` returns the record with the
smallest `next_update`, or fails on an empty store. -/
def publish_db.fetch_next : publish_db → Option (Digest × publish_record)
  | [] => none
  | e :: rest =>
    match publish_db.fetch_next rest with
    | none => some e
    | some m => if m.2.next_update < e.2.next_update then some m else some e

/-- State of a `chunk_service`: the two chunk stores, the publish store and
the publishing flag. -/
structure chunk_service where
  m_cache_db : chunk_db
  m_local_db : chunk_db
  m_pub_db : publish_db
  m_publishing : Bool
deriving DecidableEq, Repr

/-- Equality of results is decidable when it is for errors and values. -/
instance instDecidableEqExcept {ε α : Type} [DecidableEq ε] [DecidableEq α] :
    DecidableEq (Except ε α)
  | .ok a, .ok b =>
    if h : a = b then isTrue (by rw [h]) else isFalse (fun e => h (Except.ok.inj e))
  | .error a, .error b =>
    if h : a = b then isTrue (by rw [h]) else isFalse (fun e => h (Except.error.inj e))
  | .ok _, .error _ => isFalse (fun e => Except.noConfusion e)
  | .error _, .ok _ => isFalse (fun e => Except.noConfusion e)

/-! ## Chunk service: import -/

/-- The rounding `((n+7)/8)*8` up to a multiple of the cipher block. -/
def pad8 (n : Nat) : Nat := ((n + 7) / 8) * 8

/-- Variables of the chunk loop of the method `import`: the offset `r`, the
read position of the stream `in`, the buffer `chunk`, the cipher, the chunk
list of the descriptor and the local store. -/
structure import_state where
  r : Nat
  in_pos : Nat
  chunk : List Byte
  bf : blowfish
  chunks : List chunk_data
  local_db : chunk_db
deriving DecidableEq, Repr

/-- The inner loop over 64 KiB slices of the first `c` bytes of the buffer:
`s` is the slice offset, the hashes are appended to `slices`. -/
def slice_loop (P : Prims) (chunk : List Byte) (c : Nat) :
    Nat → Nat → List Nat → Option (List Nat)
  | 0, s, slices => if s < c then none else some slices
  | fuel + 1, s, slices =>
    if s < c then
      let ss := min (64 * 1024) (c - s)
      slice_loop P chunk c fuel (s + ss)
        (slices ++ [P.super_fast_hash ((chunk.drop s).take ss)])
    else some slices

/-- One pass through the body of the chunk loop. -/
def import_step (P : Prims) (file : List Byte) (st : import_state) :
    Option import_state :=
  let file_size := file.length
  let c := min (file_size - st.r) st.chunk.length
  let chunk1 :=
    if c < st.chunk.length then st.chunk.take c ++ List.replicate (st.chunk.length - c) 0
    else st.chunk
  let data := (file.drop st.in_pos).take c
  let chunk2 := data ++ chunk1.drop data.length
  let pc := c
  let c := pad8 c
  let enc := st.bf.encrypt P (chunk2.take c)
  let chunk3 := enc.1 ++ chunk2.drop c
  let chunk_id := P.sha1 (chunk3.take c)
  match slice_loop P chunk3 c c 0 [] with
  | none => none
  | some slices =>
    some
      { r := st.r + c
        in_pos := st.in_pos + data.length
        chunk := chunk3
        bf := enc.2
        chunks := st.chunks ++ [⟨pc, chunk_id, slices⟩]
        local_db := chunk_db.store_chunk st.local_db chunk_id (chunk3.take c) }

/-- The chunk loop `while( r < file_size )`. -/
def import_loop (P : Prims) (file : List Byte) : Nat → import_state → Option import_state
  | 0, st => if st.r < file.length then none else some st
  | fuel + 1, st =>
    if st.r < file.length then
      match import_step P file st with
      | none => none
      | some st1 => import_loop P file fuel st1
    else some st

/-- What a call of `import` leaves behind: the two digests it returns through
its reference arguments, the descriptor it built, the bytes written to the
descriptor file and the service with its local store updated. -/
structure import_result where
  tornet_id : Digest
  checksum : Digest
  tf : tornet_file
  outfile : List Byte
  svc : chunk_service
deriving DecidableEq, Repr

/-- Method `chunk_service::import` on a regular file with content `file` and
file name `name`.  Sizes are natural numbers: the 64-bit variables of the
source hold them exactly for every file below 2^63 bytes. -/
def import_file (P : Prims) (svc : chunk_service) (name : List Byte) (file : List Byte) :
    Except error import_result :=
  let file_size := file.length
  if file_size = 0 then .error .empty_file
  else
    let checksum := P.sha1 file
    let fhstr := P.sha1_str checksum
    let bf := (blowfish.start P fhstr).reset_chain P
    let rfile_size := pad8 file_size
    let chunk_size := 1024 * 1024
    let chunk := List.replicate (min chunk_size rfile_size) 0
    match import_loop P file file_size ⟨0, 0, chunk, bf, [], svc.m_local_db⟩ with
    | none => .error .out_of_fuel
    | some st =>
      let tf : tornet_file := ⟨name, file_size, checksum, st.chunks⟩
      let chunk := P.pack_tornet_file tf
      let chunk := chunk ++ List.replicate (pad8 chunk.length - chunk.length) 0
      let bf := st.bf.reset_chain P
      let enc := bf.encrypt P chunk
      let tornet_id := P.sha1 enc.1
      .ok
        { tornet_id := tornet_id
          checksum := checksum
          tf := tf
          outfile := P.pack_tornet_file tf
          svc := { svc with
            m_local_db := chunk_db.store_chunk st.local_db tornet_id enc.1 } }

/-! ## Chunk service: fetch and export -/

/-- Method `chunk_service::fetch_tornet`: only the local store is consulted. -/
def fetch_tornet (P : Prims) (svc : chunk_service) (tornet_id checksum : Digest) :
    Except error tornet_file :=
  match chunk_db.fetch_meta svc.m_local_db tornet_id with
  | some size =>
    match chunk_db.fetch_chunk svc.m_local_db tornet_id (List.replicate size 0) with
    | some tnet =>
      let bf := blowfish.start P (P.sha1_str checksum)
      let tnet := (bf.decrypt P tnet).1
      match P.unpack_sha1 tnet with
      | none => .error .unpack_failed
      | some check =>
        if check ≠ checksum then .error .checksum_mismatch
        else
          match P.unpack_tornet_file tnet with
          | none => .error .unpack_failed
          | some tf =>
            if tf.checksum ≠ checksum then .error .tornet_checksum_mismatch
            else .ok tf
    | none => .error .no_data_for_chunk
  | none => .error .unknown_chunk

/-- Method `chunk_service::fetch_chunk`: the local store first, then the
cache store. -/
def chunk_service.fetch_chunk (svc : chunk_service) (chunk_id : Digest) :
    Except error (List Byte) :=
  let from_local :=
    match chunk_db.fetch_meta svc.m_local_db chunk_id with
    | some size => chunk_db.fetch_chunk svc.m_local_db chunk_id (List.replicate size 0)
    | none => none
  match from_local with
  | some d => .ok d
  | none =>
    let from_cache :=
      match chunk_db.fetch_meta svc.m_cache_db chunk_id with
      | some size => chunk_db.fetch_chunk svc.m_cache_db chunk_id (List.replicate size 0)
      | none => none
    match from_cache with
    | some d => .ok d
    | none => .error .unknown_chunk

/-- Variables of the chunk loop of `export_tornet`: the cipher, the offset of
`pos` from the start of the mapped output file, and the bytes of the mapped
file. -/
structure export_state where
  bf : blowfish
  pos : Nat
  region : List Byte
deriving DecidableEq, Repr

/-- Bytes of the mapped file after `data` is written at offset `pos`. -/
def write_at (region : List Byte) (pos : Nat) (data : List Byte) : List Byte :=
  region.take pos ++ data ++ region.drop (pos + data.length)

/-- One pass through the body of the chunk loop of `export_tornet`. -/
def export_chunk (P : Prims) (local_db : chunk_db) (st : export_state) (c : chunk_data) :
    Except error export_state :=
  if st.pos + c.size > st.region.length then .error .write_beyond_end
  else
    let adj_size := pad8 c.size
    if adj_size ≠ c.size then
      match chunk_db.fetch_chunk local_db c.id (List.replicate adj_size 0) with
      | none => .error .error_fetching_chunk
      | some tmp =>
        let dec := st.bf.decrypt P tmp
        .ok ⟨dec.2, st.pos + c.size, write_at st.region st.pos (dec.1.take c.size)⟩
    else
      match chunk_db.fetch_chunk local_db c.id ((st.region.drop st.pos).take adj_size) with
      | none => .error .error_fetching_chunk
      | some buf =>
        let dec := st.bf.decrypt P buf
        .ok ⟨dec.2, st.pos + c.size, write_at st.region st.pos dec.1⟩

/-- The chunk loop of `export_tornet` over the entries of the descriptor. -/
def export_loop (P : Prims) (local_db : chunk_db) :
    List chunk_data → export_state → Except error export_state
  | [], st => .ok st
  | c :: rest, st =>
    match export_chunk P local_db st c with
    | .error e => .error e
    | .ok st1 => export_loop P local_db rest st1

/-- Size of the output file made by seeking to `rsize - 1` and writing one
byte: `rsize` bytes, and one byte when `rsize` is 0 (the seek to -1 fails and
the byte lands at offset 0). -/
def created_file_size (rsize : Nat) : Nat :=
  if rsize = 0 then 1 else rsize

/-- Method `chunk_service::export_tornet`; on success the result is the content
of the output file.  Chunk sizes are natural numbers: the `int` and 64-bit
variables of the source hold them exactly for sizes below 2^31. -/
def export_tornet (P : Prims) (svc : chunk_service) (tornet_id checksum : Digest) :
    Except error (List Byte) :=
  match fetch_tornet P svc tornet_id checksum with
  | .error e => .error e
  | .ok tf =>
    let bf := blowfish.start P (P.sha1_str checksum)
    let rsize := tf.size
    let region := List.replicate (created_file_size rsize) 0
    let bf := bf.reset_chain P
    match export_loop P svc.m_local_db tf.chunks ⟨bf, 0, region⟩ with
    | .error e => .error e
    | .ok st =>
      let fcheck := P.sha1 (st.region.take tf.size)
      if fcheck ≠ checksum then .error .file_checksum_mismatch
      else .ok st.region

/-! ## Chunk service: publishing -/

/-- The chunk loop of `publish_tornet`: fetch the record of the chunk id into
a record made by the default constructor, set its two fields, store it. -/
def publish_chunks (P : Prims) (rep : Nat) : List chunk_data → publish_db → publish_db
  | [], db => db
  | c :: rest, db =>
    let r := (publish_db.fetch db c.id).getD P.new_record
    publish_chunks P rep rest
      (publish_db.store db c.id { r with desired_host_count := rep, next_update := 0 })

/-- Method `chunk_service::publish_tornet`. -/
def publish_tornet (P : Prims) (svc : chunk_service) (tid cs : Digest) (rep : Nat) :
    Except error chunk_service :=
  match fetch_tornet P svc tid cs with
  | .error e => .error e
  | .ok tf =>
    let db := publish_chunks P rep tf.chunks svc.m_pub_db
    let r := (publish_db.fetch db tid).getD P.new_record
    .ok { svc with
      m_pub_db := publish_db.store db tid
        { r with desired_host_count := rep, next_update := 0 } }

/-- Result of a finished chunk search: the two maps from distance to node id,
in increasing order of distance. -/
structure chunk_search where
  hosting_nodes : List (Digest × Digest)
  current_results : List (Digest × Digest)
deriving DecidableEq, Repr

/-- Reply of the `store` call of a chunk session. -/
structure store_response where
  result : Nat
  balance : Int
deriving DecidableEq, Repr

/-- What one pass of the publish loop gets from outside the service: the id of
the own node, the two clock readings, the outcome of the chunk search for an id
and a host count, whether a connection to a peer is obtained, and the reply of
the peer to a `store` call (`none` when the call fails). -/
structure publish_env where
  node_id : Digest
  now_wait : Nat
  now_update : Nat
  search : Digest → Nat → chunk_search
  connect : Digest → Bool
  store : Digest → List Byte → Option store_response

/-- The loop `while( itr != nn.end() && itr->second == get_node()->get_id() )`:
the first entry of the near nodes whose node id is not the own id. -/
def skip_self (node_id : Digest) : List (Digest × Digest) → Option (Digest × Digest)
  | [] => none
  | e :: rest => if e.2 = node_id then skip_self node_id rest else some e

/-- What one pass of the publish loop leaves behind: the service, the time
slept before the search, and the peer a chunk was uploaded to with the bytes
sent, if any. -/
structure publish_outcome where
  svc : chunk_service
  slept_us : Nat
  uploaded : Option (Digest × List Byte)
deriving DecidableEq, Repr

/-- One pass through the body of `while( m_publishing )` in `publish_loop`. -/
def publish_loop_body (env : publish_env) (svc : chunk_service) :
    Except error publish_outcome :=
  match publish_db.fetch_next svc.m_pub_db with
  | some (chunk_id, next_pub) =>
    let time_till_update : Int := (next_pub.next_update : Int) - (env.now_wait : Int)
    let slept := if time_till_update > 0 then time_till_update.toNat else 0
    let csearch := env.search chunk_id (next_pub.desired_host_count * 2)
    let hn := csearch.hosting_nodes
    let upload : Except error (Option (Digest × List Byte)) :=
      if hn.length < next_pub.desired_host_count then
        let nn := csearch.current_results
        match skip_self env.node_id nn with
        | none => .ok none
        | some itr =>
          if env.connect itr.2 then
            match svc.fetch_chunk chunk_id with
            | .error e => .error e
            | .ok data =>
              match env.store itr.2 data with
              | none => .error .rpc_failed
              | some _ => .ok (some (itr.2, data))
          else .error .rpc_failed
      else .ok none
    match upload with
    | .error e => .error e
    | .ok sent =>
      let next_update := 60 * 1000 * 1000
      let next_pub := { next_pub with next_update := env.now_update + next_update }
      .ok ⟨{ svc with m_pub_db := publish_db.store svc.m_pub_db chunk_id next_pub },
        slept, sent⟩
  | none => .ok ⟨svc, 1000 * 1000, none⟩

/-! ## Chunk service: assumptions on the primitives and a concrete instance -/

/-- The cipher assumption: on a buffer of whole blocks, a CBC decryption pass
started with the same key and chain as the encryption pass gives back the
plain buffer and leaves the same chain behind. -/
def CipherOk (P : Prims) : Prop :=
  ∀ key chain buf, buf.length % 8 = 0 →
    P.bf_decrypt key chain (P.bf_encrypt key chain buf).1
      = (buf, (P.bf_encrypt key chain buf).2)

/-- The codec assumption: unpacking a descriptor from its encoding followed by
padding gives the descriptor back, and unpacking a digest from the same bytes
gives the checksum of the descriptor, the leading digest of the blob. -/
def CodecOk (P : Prims) : Prop :=
  ∀ tf pad,
    P.unpack_tornet_file (P.pack_tornet_file tf ++ pad) = some tf
      ∧ P.unpack_sha1 (P.pack_tornet_file tf ++ pad) = some tf.checksum

/-- The entries a call of `import` added to the local store `db0`, newest
first; empty when the call fails. -/
def import_stored (P : Prims) (svc : chunk_service) (name file : List Byte) :
    List (Digest × List Byte) :=
  match import_file P svc name file with
  | .ok res => res.svc.m_local_db.take (res.svc.m_local_db.length - svc.m_local_db.length)
  | .error _ => []

/-- No two different byte strings of the list have the same digest. -/
def CollisionFree (P : Prims) (blobs : List (List Byte)) : Prop :=
  ∀ a ∈ blobs, ∀ b ∈ blobs, P.sha1 a = P.sha1 b → a = b

/-- Toy chained encryption of a byte string: every output byte is the input
byte plus the previous output byte plus the key. -/
def demo_enc_bytes (k : Nat) : Nat → List Byte → List Byte × Nat
  | prev, [] => ([], prev)
  | prev, p :: ps =>
    ((p + prev + k) :: (demo_enc_bytes k (p + prev + k) ps).1,
      (demo_enc_bytes k (p + prev + k) ps).2)

/-- Inverse pass of `demo_enc_bytes`. -/
def demo_dec_bytes (k : Nat) : Nat → List Byte → List Byte × Nat
  | prev, [] => ([], prev)
  | prev, c :: cs =>
    ((c - prev - k) :: (demo_dec_bytes k c cs).1, (demo_dec_bytes k c cs).2)

/-- Toy encoding of the chunk entries of a descriptor. -/
def demo_pack_chunks : List chunk_data → List Byte
  | [] => []
  | c :: rest => [c.size, c.id, c.slices.length] ++ c.slices ++ demo_pack_chunks rest

/-- Toy encoding of a descriptor: the checksum first, counted sequences. -/
def demo_pack (tf : tornet_file) : List Byte :=
  [tf.checksum, tf.name.length] ++ tf.name ++ [tf.size, tf.chunks.length]
    ++ demo_pack_chunks tf.chunks

/-- Decoder of `demo_pack_chunks` for a given number of entries. -/
def demo_unpack_chunks : Nat → List Byte → Option (List chunk_data)
  | 0, _ => some []
  | n + 1, size :: id :: k :: rest =>
    if rest.length < k then none
    else
      match demo_unpack_chunks n (rest.drop k) with
      | none => none
      | some cs => some (⟨size, id, rest.take k⟩ :: cs)
  | _ + 1, _ => none

/-- Decoder of `demo_pack`; bytes after the encoding are ignored. -/
def demo_unpack : List Byte → Option tornet_file
  | checksum :: nlen :: rest =>
    if rest.length < nlen then none
    else
      match rest.drop nlen with
      | size :: cnt :: rest2 =>
        match demo_unpack_chunks cnt rest2 with
        | none => none
        | some cs => some ⟨rest.take nlen, size, checksum, cs⟩
      | _ => none
  | _ => none

/-- A concrete set of primitives: the digest `demo_sha1`, the chained toy
cipher keyed with the sum of the key bytes, and the toy codec. -/
def demo_prims : Prims where
  sha1 := demo_sha1
  sha1_str d := [d]
  chain0 := [0]
  bf_encrypt key chain buf :=
    ((demo_enc_bytes key.sum (chain.headD 0) buf).1,
      [(demo_enc_bytes key.sum (chain.headD 0) buf).2])
  bf_decrypt key chain buf :=
    ((demo_dec_bytes key.sum (chain.headD 0) buf).1,
      [(demo_dec_bytes key.sum (chain.headD 0) buf).2])
  super_fast_hash bytes := bytes.sum % 2 ^ 32
  pack_tornet_file := demo_pack
  unpack_sha1 bytes := bytes.head?
  unpack_tornet_file := demo_unpack
  new_record := ⟨0, 0, 0⟩
  bf_encrypt_length key chain buf := by
    show (demo_enc_bytes key.sum (chain.headD 0) buf).1.length = buf.length
    generalize chain.headD 0 = prev
    induction buf generalizing prev with
    | nil => rfl
    | cons p ps ih => simp [demo_enc_bytes, ih]
  bf_decrypt_length key chain buf := by
    show (demo_dec_bytes key.sum (chain.headD 0) buf).1.length = buf.length
    generalize chain.headD 0 = prev
    induction buf generalizing prev with
    | nil => rfl
    | cons p ps ih => simp [demo_dec_bytes, ih]

/-- A service with empty stores. -/
def demo_service : chunk_service := ⟨[], [], [], false⟩

/-- The bytes the chunk loop of the method `import` encrypts at offset `r`
with a buffer of `B` bytes: the next `min (n - r) B` bytes of the file,
zero-padded to whole blocks. -/
def plain_chunk (file : List Byte) (r B : Nat) : List Byte :=
  (file.drop r).take (min (file.length - r) B)
    ++ List.replicate (pad8 (min (file.length - r) B) - min (file.length - r) B) 0

/-- Position invariant of the chunk loop for a buffer of `B` bytes: the buffer
keeps its length, the read position is the offset `r` while the loop runs and
the end of the file afterwards. -/
def import_pos_inv (file : List Byte) (B : Nat) (st : import_state) : Prop :=
  st.chunk.length = B ∧ (st.r < file.length → st.in_pos = st.r)
    ∧ (file.length ≤ st.r → st.in_pos = file.length)

/-- Size invariant of the chunk loop for a buffer of `B` bytes: the offset is
the number of entries times `B` while the loop runs, the entries cover the
file when it has ended, entry `i` records the size `min B (n - i * B)` and one
slice hash for each started 64 KiB of its padded size, and the recorded sizes
add up to the read position. -/
def import_size_inv (file : List Byte) (B : Nat) (st : import_state) : Prop :=
  (st.r < file.length → st.r = st.chunks.length * B)
    ∧ (file.length ≤ st.r →
        file.length ≤ st.chunks.length * B ∧ st.chunks.length * B < file.length + B)
    ∧ (∀ i c, st.chunks[i]? = some c →
        c.size = min B (file.length - i * B)
          ∧ c.slices.length = (pad8 c.size + 65535) / 65536)
    ∧ (st.chunks.map chunk_data.size).sum = st.in_pos

/-- The encrypted descriptor blob that the method `import` stores for a
descriptor: its encoding, zero-padded to whole blocks and encrypted, from the
initial chain, with the key made of its checksum. -/
def descriptor_blob (P : Prims) (tf : tornet_file) : List Byte :=
  ((blowfish.start P (P.sha1_str tf.checksum)).encrypt P
    (P.pack_tornet_file tf
      ++ List.replicate (pad8 (P.pack_tornet_file tf).length - (P.pack_tornet_file tf).length) 0)).1

/-- Export invariant of the chunk loop of `import`, for the key `key` and the
local store `db0` before the call: the cipher keeps its key, the entries added
to the store are filed under the digest of their bytes, and against any store
that returns these entries the chunk loop of `export_tornet` over the entries
recorded so far writes the part of the file read so far and leaves the cipher
in the state the import has reached. -/
def import_export_inv (P : Prims) (file key : List Byte) (db0 : chunk_db)
    (st : import_state) : Prop :=
  st.bf.key = key
    ∧ ∃ added : List (Digest × List Byte),
      st.local_db = added ++ db0
        ∧ (∀ e ∈ added, e.1 = P.sha1 e.2)
        ∧ ∀ db : chunk_db, (∀ e ∈ added, db.lookup e.1 = some e.2) →
          export_loop P db st.chunks ⟨⟨key, P.chain0⟩, 0, List.replicate file.length 0⟩
            = .ok ⟨st.bf, st.in_pos,
                file.take st.in_pos ++ List.replicate (file.length - st.in_pos) 0⟩

/-- Descriptor that `import` builds under `demo_prims` for the one-byte file
`0x41` named `a`. -/
def demo_tf : tornet_file := ⟨[97], 1, 282, [⟨1, 855, [10672]⟩]⟩

/-- Service left by that call of `import` on `demo_service`: the local store
holds the encrypted descriptor under the tornet id 108 and the encrypted chunk
under the chunk id 855. -/
def demo_imported : chunk_service :=
  ⟨[], [(108, [564, 847, 1226, 1509, 1792, 2075, 3212, 3495, 14449, 14731, 15013, 15295,
      15577, 15859, 16141, 16423]),
    (855, [347, 629, 911, 1193, 1475, 1757, 2039, 2321])], [], false⟩

/-- The same two blobs held by the cache store only. -/
def demo_cached : chunk_service :=
  ⟨[(108, [564, 847, 1226, 1509, 1792, 2075, 3212, 3495, 14449, 14731, 15013, 15295,
      15577, 15859, 16141, 16423]),
    (855, [347, 629, 911, 1193, 1475, 1757, 2039, 2321])], [], [], false⟩

/-- Service `demo_imported` after one byte of the stored chunk is changed. -/
def demo_corrupted : chunk_service :=
  ⟨[], [(108, [564, 847, 1226, 1509, 1792, 2075, 3212, 3495, 14449, 14731, 15013, 15295,
      15577, 15859, 16141, 16423]),
    (855, [348, 629, 911, 1193, 1475, 1757, 2039, 2321])], [], false⟩

/-- The publish record of an id asks for `rep` hosts and is due at once. -/
def published (rep : Nat) (db : publish_db) (id : Digest) : Prop :=
  ∃ r, publish_db.fetch db id = some r ∧ r.desired_host_count = rep ∧ r.next_update = 0

/-- Surroundings of a publish pass with no known peers: the own node id is 1,
the clock reads 1000 and then 2000 microseconds, and the chunk search finds
neither hosting nodes nor near nodes. -/
def demo_env : publish_env :=
  ⟨1, 1000, 2000, fun _ _ => ⟨[], []⟩, fun _ => true, fun _ _ => some ⟨0, 0⟩⟩

/-- Surroundings of a publish pass with the own node and one peer, node 7, as
near nodes, no hosting node, and a peer that accepts the chunk. -/
def demo_env_peer : publish_env :=
  ⟨1, 1000, 2000, fun _ _ => ⟨[], [(2, 1), (3, 7)]⟩, fun _ => true, fun _ _ => some ⟨0, 0⟩⟩

/-- Service `demo_imported` with publishing enabled and one publish record,
for the chunk 855: due at time 0, 5 hosts observed before, 3 hosts desired. -/
def demo_publishing : chunk_service :=
  { demo_imported with m_pub_db := [(855, ⟨0, 5, 3⟩)], m_publishing := true }

/-- Surroundings of a publish pass in which the nearest peer, node 7 at
distance 2, already hosts the chunk and the next peer, node 9 at distance 3,
does not; the own node id is 1. -/
def demo_env_hosted : publish_env :=
  ⟨1, 1000, 2000, fun _ _ => ⟨[(2, 7)], [(2, 7), (3, 9)]⟩, fun _ => true,
    fun _ _ => some ⟨0, 0⟩⟩

/-! # Theorems -/

/-! ## Name chain -/

theorem find_nonce_loop_fst {β : Type} (C : ChainPrims β) (start end_ : Nat)
    (thresh : Digest) (done : Nat → Bool) (fuel k : Nat) (tran : name_trx β)
    (v : Nat) (t : name_trx β)
    (h : find_nonce_loop C start end_ thresh done fuel k tran = some (v, t)) :
    v = start := by
  induction fuel generalizing k tran with
  | zero =>
    simp only [find_nonce_loop] at h
    split at h
    · split at h
      · simp only [Option.some.injEq, Prod.mk.injEq] at h
        exact h.1.symm
      · simp at h
    · simp only [Option.some.injEq, Prod.mk.injEq] at h
      exact h.1.symm
  | succ fuel ih =>
    simp only [find_nonce_loop] at h
    split at h
    · split at h
      · simp only [Option.some.injEq, Prod.mk.injEq] at h
        exact h.1.symm
      · exact ih _ _ h
    · simp only [Option.some.injEq, Prod.mk.injEq] at h
      exact h.1.symm

/-- Whatever the search finds, the value `find_nonce` returns is its own
argument `start`. -/
theorem find_nonce_returns_start {β : Type} (C : ChainPrims β) (tran : name_trx β)
    (start end_ : Nat) (thresh : Digest) (done : Nat → Bool)
    (v : Nat) (t : name_trx β)
    (h : find_nonce C tran start end_ thresh done = some (v, t)) : v = start :=
  find_nonce_loop_fst C start end_ thresh done _ _ _ v t h

/-- C2 (at a failing input): searching the nonces 0 to 4 of `demo_trx` with
threshold 100 and the flag never set, the first nonce whose digest is below
the threshold is 3, the transaction is left with nonce 3, and the value
returned is 0; on a range without any valid nonce the value returned is 0 and
not the end of the range, 3. -/
theorem find_nonce_returns_start_not_nonce :
    find_nonce demo_chain demo_trx 0 5 100 (fun _ => false)
        = some (0, demo_trx.set_nonce 3)
      ∧ validate_trx_hash demo_chain (demo_trx.set_nonce 3) 100 = true
      ∧ (∀ n, n < 3 → validate_trx_hash demo_chain (demo_trx.set_nonce n) 100 = false)
      ∧ find_nonce demo_chain demo_trx 0 3 100 (fun _ => false)
        = some (0, demo_trx.set_nonce 3) := by
  refine ⟨by decide, by decide, ?_, by decide⟩
  intro n hn
  interval_cases n <;> decide

/-- C3 (at a failing input): `demo_block` lists the transaction id 40, which
is not below the transaction threshold 40, and `validate_block_hash` accepts
the block. -/
theorem validate_block_hash_accepts_trx_at_threshold :
    validate_block_hash demo_chain demo_block demo_gen 50 40 = true
      ∧ 40 ∈ demo_block.transactions ∧ ¬ (40 < 40) := by
  decide

/-- C4: `validate_block_hash` returns false when the base of the generating
transaction differs from the base hash of the block, when the digest of the
encoded generating transaction differs from `gen_transaction`, and when that
digest is not strictly below the block threshold. -/
theorem validate_block_hash_rejects {β : Type} (C : ChainPrims β) (b : name_block)
    (gen : name_trx β) (block_thresh trx_thresh : Digest)
    (h : gen.head.base ≠ b.base_hash C
      ∨ C.sha1 (C.pack_trx gen) ≠ b.gen_transaction
      ∨ ¬ (C.sha1 (C.pack_trx gen) < block_thresh)) :
    validate_block_hash C b gen block_thresh trx_thresh = false := by
  unfold validate_block_hash
  rcases h with h | h | h
  · simp [h]
  · have h2 : b.gen_transaction ≠ C.sha1 (C.pack_trx gen) := fun e => h e.symm
    simp [h2]
  · have h2 : block_thresh ≤ C.sha1 (C.pack_trx gen) := Nat.le_of_not_lt h
    simp [h2]

/-- Witness for C4: the digest 28 of `demo_gen` is not below the block
threshold 28, and the block is rejected. -/
theorem validate_block_hash_rejects_witness :
    ¬ (demo_chain.sha1 (demo_chain.pack_trx demo_gen) < 28)
      ∧ validate_block_hash demo_chain demo_block demo_gen 28 40 = false :=
  ⟨by decide,
   validate_block_hash_rejects demo_chain demo_block demo_gen 28 40
     (Or.inr (Or.inr (by decide)))⟩

/-- C8 (at a failing input): `demo_early_block` is stamped 479 seconds after
the tip `demo_tip` and `demo_future_block` is stamped far later than any
present clock reading, here 2000000000000000 microseconds; both pass
`validate_block_hash`, the only block validation of the sources, which reads
neither the previous block nor a clock. -/
theorem validate_block_hash_ignores_time :
    demo_early_block.utc_us = demo_tip.utc_us + 479 * 10 ^ 6
      ∧ demo_early_block.utc_us < demo_tip.utc_us + 480 * 10 ^ 6
      ∧ validate_block_hash demo_chain demo_early_block demo_early_gen 50 40 = true
      ∧ 2000000000000000 < demo_future_block.utc_us
      ∧ validate_block_hash demo_chain demo_future_block demo_future_gen 50 40 = true := by
  decide

/-! ## Chunk service: the chunk loop of import -/

theorem pad8_mod (n : Nat) : pad8 n % 8 = 0 := by
  unfold pad8; omega

theorem le_pad8 (n : Nat) : n ≤ pad8 n := by
  unfold pad8; omega

theorem pad8_lt (n : Nat) : pad8 n < n + 8 := by
  unfold pad8; omega

theorem pad8_eq_self (n : Nat) (h : n % 8 = 0) : pad8 n = n := by
  unfold pad8; omega

theorem pad8_le_of_le (n m : Nat) (hm : m % 8 = 0) (h : n ≤ m) : pad8 n ≤ m := by
  unfold pad8; omega

theorem pad8_pos (n : Nat) (h : 0 < n) : 0 < pad8 n := by
  unfold pad8; omega

/-- With fuel for every remaining byte the slice loop ends, having added one
hash for each started 64 KiB of the `c - s` remaining bytes. -/
theorem slice_loop_some (P : Prims) (chunk : List Byte) (c : Nat) :
    ∀ (fuel s : Nat) (acc : List Nat), c - s ≤ fuel →
      ∃ sl, slice_loop P chunk c fuel s acc = some sl
        ∧ sl.length = acc.length + (c - s + 65535) / 65536 := by
  intro fuel
  induction fuel with
  | zero =>
    intro s acc h
    have hs : ¬ s < c := by omega
    refine ⟨acc, by simp [slice_loop, hs], ?_⟩
    have : c - s = 0 := by omega
    simp [this]
  | succ fuel ih =>
    intro s acc h
    by_cases hs : s < c
    · obtain ⟨sl, h1, h2⟩ := ih (s + min (64 * 1024) (c - s))
        (acc ++ [P.super_fast_hash ((chunk.drop s).take (min (64 * 1024) (c - s)))])
        (by omega)
      refine ⟨sl, by simp only [slice_loop, hs, if_true]; exact h1, ?_⟩
      rw [h2]
      simp only [List.length_append, List.length_singleton]
      omega
    · refine ⟨acc, by simp [slice_loop, hs], ?_⟩
      have : c - s = 0 := by omega
      simp [this]

/-- The first `pad8 c` bytes of the buffer after the tail is cleared and `c`
bytes are read into it: the bytes read, zero-padded to whole blocks. -/
theorem filled_buffer_take (buf data : List Byte) (c : Nat) (hB : buf.length % 8 = 0)
    (hc : c ≤ buf.length) (hd : data.length = c) :
    (data ++ (if c < buf.length then buf.take c ++ List.replicate (buf.length - c) 0
        else buf).drop data.length).take (pad8 c)
      = data ++ List.replicate (pad8 c - c) 0 := by
  have hp : pad8 c ≤ buf.length := pad8_le_of_le _ _ hB hc
  have hle : c ≤ pad8 c := le_pad8 c
  by_cases h : c < buf.length
  · have h1 : (buf.take c ++ List.replicate (buf.length - c) 0).drop data.length
        = List.replicate (buf.length - c) 0 := by
      rw [hd]
      apply List.drop_left'
      simp [List.length_take]; omega
    simp only [h, if_true, h1]
    rw [List.take_append_eq_append_take, hd]
    have h2 : data.take (pad8 c) = data := List.take_of_length_le (by omega)
    rw [h2, List.take_replicate]
    congr 2
    omega
  · have hcb : c = buf.length := by omega
    have h1 : buf.drop data.length = [] := List.drop_of_length_le (by omega)
    have h3 : pad8 c = c := pad8_eq_self c (by omega)
    simp only [h, if_false, h1, List.append_nil, h3, Nat.sub_self, List.replicate_zero]
    exact List.take_of_length_le (by omega)

theorem filled_buffer_length (buf data : List Byte) (c : Nat)
    (hc : c ≤ buf.length) (hd : data.length = c) :
    (data ++ (if c < buf.length then buf.take c ++ List.replicate (buf.length - c) 0
        else buf).drop data.length).length = buf.length := by
  by_cases h : c < buf.length
  · simp only [h, if_true, List.length_append, List.length_drop, List.length_take,
      List.length_replicate]
    omega
  · simp only [h, if_false, List.length_append, List.length_drop]
    omega

/-- A pass of the chunk loop on a buffer of whole blocks whose read position
is the offset `r`: it succeeds, and it reads, encrypts, records and stores
`plain_chunk`. -/
theorem import_step_eq (P : Prims) (file : List Byte) (st : import_state)
    (hB : st.chunk.length % 8 = 0) (hpos : st.in_pos = st.r) :
    ∃ st1 slices,
      import_step P file st = some st1
        ∧ slices.length = (pad8 (min (file.length - st.r) st.chunk.length) + 65535) / 65536
        ∧ st1.r = st.r + pad8 (min (file.length - st.r) st.chunk.length)
        ∧ st1.in_pos = st.r + min (file.length - st.r) st.chunk.length
        ∧ st1.chunk.length = st.chunk.length
        ∧ st1.bf = (st.bf.encrypt P (plain_chunk file st.r st.chunk.length)).2
        ∧ st1.chunks = st.chunks ++ [⟨min (file.length - st.r) st.chunk.length,
            P.sha1 (st.bf.encrypt P (plain_chunk file st.r st.chunk.length)).1, slices⟩]
        ∧ st1.local_db = chunk_db.store_chunk st.local_db
            (P.sha1 (st.bf.encrypt P (plain_chunk file st.r st.chunk.length)).1)
            (st.bf.encrypt P (plain_chunk file st.r st.chunk.length)).1 := by
  have hcB : min (file.length - st.r) st.chunk.length ≤ st.chunk.length := Nat.min_le_right _ _
  have hcn : min (file.length - st.r) st.chunk.length ≤ file.length - st.r := Nat.min_le_left _ _
  have hd : ((file.drop st.in_pos).take (min (file.length - st.r) st.chunk.length)).length
      = min (file.length - st.r) st.chunk.length := by
    rw [List.length_take, List.length_drop, hpos]; omega
  have hp : pad8 (min (file.length - st.r) st.chunk.length) ≤ st.chunk.length :=
    pad8_le_of_le _ _ hB hcB
  have htake := filled_buffer_take st.chunk _ _ hB hcB hd
  have hlen := filled_buffer_length st.chunk _ _ hcB hd
  rw [hpos] at htake hlen
  have henc : (st.bf.encrypt P (plain_chunk file st.r st.chunk.length)).1.length
      = pad8 (min (file.length - st.r) st.chunk.length) := by
    unfold blowfish.encrypt plain_chunk
    simp only [P.bf_encrypt_length, List.length_append, List.length_take, List.length_drop,
      List.length_replicate]
    have := le_pad8 (min (file.length - st.r) st.chunk.length)
    omega
  obtain ⟨sl, hsl, hsll⟩ := slice_loop_some P
    ((st.bf.encrypt P (plain_chunk file st.r st.chunk.length)).1
      ++ ((file.drop st.r).take (min (file.length - st.r) st.chunk.length)
        ++ (if min (file.length - st.r) st.chunk.length < st.chunk.length then
            st.chunk.take (min (file.length - st.r) st.chunk.length)
              ++ List.replicate (st.chunk.length - min (file.length - st.r) st.chunk.length) 0
          else st.chunk).drop
            ((file.drop st.r).take (min (file.length - st.r) st.chunk.length)).length).drop
        (pad8 (min (file.length - st.r) st.chunk.length)))
    (pad8 (min (file.length - st.r) st.chunk.length))
    (pad8 (min (file.length - st.r) st.chunk.length)) 0 [] (by omega)
  have htk : ∀ rest : List Byte,
      ((st.bf.encrypt P (plain_chunk file st.r st.chunk.length)).1 ++ rest).take
        (pad8 (min (file.length - st.r) st.chunk.length))
        = (st.bf.encrypt P (plain_chunk file st.r st.chunk.length)).1 := by
    intro rest
    rw [← henc]
    exact List.take_left' rfl
  refine ⟨⟨st.r + pad8 (min (file.length - st.r) st.chunk.length),
      st.r + ((file.drop st.r).take (min (file.length - st.r) st.chunk.length)).length,
      (st.bf.encrypt P (plain_chunk file st.r st.chunk.length)).1
      ++ ((file.drop st.r).take (min (file.length - st.r) st.chunk.length)
        ++ (if min (file.length - st.r) st.chunk.length < st.chunk.length then
            st.chunk.take (min (file.length - st.r) st.chunk.length)
              ++ List.replicate (st.chunk.length - min (file.length - st.r) st.chunk.length) 0
          else st.chunk).drop
            ((file.drop st.r).take (min (file.length - st.r) st.chunk.length)).length).drop
        (pad8 (min (file.length - st.r) st.chunk.length)),
      (st.bf.encrypt P (plain_chunk file st.r st.chunk.length)).2,
      st.chunks ++ [⟨min (file.length - st.r) st.chunk.length,
            P.sha1 (st.bf.encrypt P (plain_chunk file st.r st.chunk.length)).1, sl⟩],
      chunk_db.store_chunk st.local_db
            (P.sha1 (st.bf.encrypt P (plain_chunk file st.r st.chunk.length)).1)
            (st.bf.encrypt P (plain_chunk file st.r st.chunk.length)).1⟩,
    sl, ?_, ?_, rfl, ?_, ?_, rfl, rfl, rfl⟩
  · unfold import_step
    simp only [hpos, htake]
    have hpc : plain_chunk file st.r st.chunk.length
        = (file.drop st.r).take (min (file.length - st.r) st.chunk.length)
          ++ List.replicate (pad8 (min (file.length - st.r) st.chunk.length)
            - min (file.length - st.r) st.chunk.length) 0 := rfl
    rw [← hpc, hsl]
    simp only [htk]
  · simpa using hsll
  · simp only []
    rw [hpos] at hd
    rw [hd]
  · simp only [List.length_append, List.length_drop, henc, hlen]
    omega

/-- Induction over the chunk loop: a property kept by every pass that also
moves the offset forward holds when the loop ends, and the loop does end when
the fuel covers the bytes left. -/
theorem import_loop_induction (P : Prims) (file : List Byte) (I : import_state → Prop)
    (hstep : ∀ st, I st → st.r < file.length →
      ∃ st1, import_step P file st = some st1 ∧ I st1 ∧ st.r < st1.r) :
    ∀ (fuel : Nat) (st : import_state), I st → file.length - st.r ≤ fuel →
      ∃ st2, import_loop P file fuel st = some st2 ∧ I st2 ∧ file.length ≤ st2.r := by
  intro fuel
  induction fuel with
  | zero =>
    intro st hI hf
    have hr : ¬ st.r < file.length := by omega
    exact ⟨st, by simp [import_loop, hr], hI, by omega⟩
  | succ fuel ih =>
    intro st hI hf
    by_cases hr : st.r < file.length
    · obtain ⟨st1, h1, hI1, hlt⟩ := hstep st hI hr
      obtain ⟨st2, h2, hI2, hle⟩ := ih st1 hI1 (by omega)
      exact ⟨st2, by simp only [import_loop, hr, if_true, h1]; exact h2, hI2, hle⟩
    · exact ⟨st, by simp [import_loop, hr], hI, by omega⟩

theorem import_pos_inv_step (file : List Byte) (B : Nat) (hB : B % 8 = 0) (hB0 : 0 < B)
    (st st1 : import_state) (hI : import_pos_inv file B st) (hr : st.r < file.length)
    (h1 : st1.r = st.r + pad8 (min (file.length - st.r) st.chunk.length))
    (h2 : st1.in_pos = st.r + min (file.length - st.r) st.chunk.length)
    (h3 : st1.chunk.length = st.chunk.length) :
    import_pos_inv file B st1 ∧ st.r < st1.r := by
  obtain ⟨hl, _, _⟩ := hI
  rw [hl] at h1 h2
  have hmin : min (file.length - st.r) B = file.length - st.r ∨ min (file.length - st.r) B = B := by
    rcases Nat.le_total (file.length - st.r) B with h | h
    · left; exact Nat.min_eq_left h
    · right; exact Nat.min_eq_right h
  have hle1 := Nat.min_le_left (file.length - st.r) B
  have hle2 := Nat.min_le_right (file.length - st.r) B
  unfold pad8 at h1
  refine ⟨⟨by rw [h3, hl], ?_, ?_⟩, ?_⟩
  · intro h; rcases hmin with h4 | h4 <;> omega
  · intro h; rcases hmin with h4 | h4 <;> omega
  · rcases hmin with h4 | h4 <;> omega

theorem import_size_inv_step (file : List Byte) (B : Nat) (hB : B % 8 = 0)
    (st st1 : import_state) (slices : List Nat) (id : Digest)
    (hI0 : import_pos_inv file B st) (hI : import_size_inv file B st)
    (hr : st.r < file.length)
    (hsl : slices.length = (pad8 (min (file.length - st.r) st.chunk.length) + 65535) / 65536)
    (h1 : st1.r = st.r + pad8 (min (file.length - st.r) st.chunk.length))
    (h2 : st1.in_pos = st.r + min (file.length - st.r) st.chunk.length)
    (h4 : st1.chunks = st.chunks ++ [⟨min (file.length - st.r) st.chunk.length, id, slices⟩]) :
    import_size_inv file B st1 := by
  obtain ⟨hl, hp, _⟩ := hI0
  obtain ⟨ha, _, hc, hd⟩ := hI
  have hrk := ha hr
  have hpos := hp hr
  rw [hl] at h1 h2 h4 hsl
  have hmin : min (file.length - st.r) B = file.length - st.r ∨ min (file.length - st.r) B = B := by
    rcases Nat.le_total (file.length - st.r) B with h | h
    · left; exact Nat.min_eq_left h
    · right; exact Nat.min_eq_right h
  have hle1 := Nat.min_le_left (file.length - st.r) B
  have hle2 := Nat.min_le_right (file.length - st.r) B
  have hlen : st1.chunks.length = st.chunks.length + 1 := by simp [h4]
  have hmul : (st.chunks.length + 1) * B = st.chunks.length * B + B := Nat.succ_mul _ _
  have hpad := pad8_le_of_le _ _ hB hle2
  have hpad2 := le_pad8 (min (file.length - st.r) B)
  refine ⟨?_, ?_, ?_, ?_⟩
  · intro h
    rw [hlen, hmul]
    have hpB : pad8 B = B := pad8_eq_self B hB
    rcases hmin with h5 | h5
    · omega
    · rw [h5, hpB] at h1; omega
  · intro h
    rw [hlen, hmul]
    omega
  · intro i c hic
    rw [h4] at hic
    by_cases hi : i < st.chunks.length
    · rw [List.getElem?_append_left hi] at hic
      exact hc i c hic
    · by_cases hi2 : i = st.chunks.length
      · subst hi2
        rw [List.getElem?_append_right (Nat.le_refl _)] at hic
        simp only [Nat.sub_self, List.getElem?_cons_zero, Option.some.injEq] at hic
        subst hic
        simp only []
        refine ⟨?_, hsl⟩
        rw [← hrk, Nat.min_comm]
      · rw [List.getElem?_eq_none (by simp; omega)] at hic
        simp at hic
  · rw [h4, List.map_append, List.sum_append, hd, hpos, h2]
    simp

/-- The initial state of the chunk loop in `import`. -/
theorem import_buffer_facts (n : Nat) (h : 0 < n) :
    min (1024 * 1024) (pad8 n) % 8 = 0 ∧ 0 < min (1024 * 1024) (pad8 n) := by
  unfold pad8
  omega

/-- The result of `import` in terms of the state the chunk loop ends in. -/
theorem import_file_of_loop (P : Prims) (svc : chunk_service) (name file : List Byte)
    (h : 0 < file.length) (st : import_state)
    (hloop : import_loop P file file.length
      ⟨0, 0, List.replicate (min (1024 * 1024) (pad8 file.length)) 0,
        (blowfish.start P (P.sha1_str (P.sha1 file))).reset_chain P, [], svc.m_local_db⟩
      = some st) :
    import_file P svc name file = .ok
      { tornet_id := P.sha1 ((st.bf.reset_chain P).encrypt P
          (P.pack_tornet_file ⟨name, file.length, P.sha1 file, st.chunks⟩
            ++ List.replicate
              (pad8 (P.pack_tornet_file ⟨name, file.length, P.sha1 file, st.chunks⟩).length
                - (P.pack_tornet_file ⟨name, file.length, P.sha1 file, st.chunks⟩).length) 0)).1
        checksum := P.sha1 file
        tf := ⟨name, file.length, P.sha1 file, st.chunks⟩
        outfile := P.pack_tornet_file ⟨name, file.length, P.sha1 file, st.chunks⟩
        svc := { svc with
          m_local_db := chunk_db.store_chunk st.local_db
            (P.sha1 ((st.bf.reset_chain P).encrypt P
              (P.pack_tornet_file ⟨name, file.length, P.sha1 file, st.chunks⟩
                ++ List.replicate
                  (pad8 (P.pack_tornet_file ⟨name, file.length, P.sha1 file, st.chunks⟩).length
                    - (P.pack_tornet_file ⟨name, file.length, P.sha1 file, st.chunks⟩).length) 0)).1)
            ((st.bf.reset_chain P).encrypt P
              (P.pack_tornet_file ⟨name, file.length, P.sha1 file, st.chunks⟩
                ++ List.replicate
                  (pad8 (P.pack_tornet_file ⟨name, file.length, P.sha1 file, st.chunks⟩).length
                    - (P.pack_tornet_file ⟨name, file.length, P.sha1 file, st.chunks⟩).length) 0)).1 } } := by
  have h0 : file.length ≠ 0 := by omega
  unfold import_file
  simp only [h0, if_false, hloop]

/-- The chunk loop of `import` ends, and the two invariants hold at its end. -/
theorem import_loop_sizes (P : Prims) (file : List Byte) (h : 0 < file.length)
    (bf : blowfish) (db : chunk_db) :
    ∃ st, import_loop P file file.length
        ⟨0, 0, List.replicate (min (1024 * 1024) (pad8 file.length)) 0, bf, [], db⟩ = some st
      ∧ import_pos_inv file (min (1024 * 1024) (pad8 file.length)) st
      ∧ import_size_inv file (min (1024 * 1024) (pad8 file.length)) st
      ∧ file.length ≤ st.r := by
  obtain ⟨hB, hB0⟩ := import_buffer_facts file.length h
  have key := import_loop_induction P file
    (fun st => import_pos_inv file (min (1024 * 1024) (pad8 file.length)) st
      ∧ import_size_inv file (min (1024 * 1024) (pad8 file.length)) st)
    (by
      intro st ⟨hI0, hI5⟩ hr
      have hl : st.chunk.length = min (1024 * 1024) (pad8 file.length) := hI0.1
      obtain ⟨st1, sl, hs, hsl, h1, h2, h3, _, h5, _⟩ :=
        import_step_eq P file st (by rw [hl]; exact hB) (hI0.2.1 hr)
      have hp := import_pos_inv_step file _ hB hB0 st st1 hI0 hr h1 h2 h3
      exact ⟨st1, hs, ⟨hp.1, import_size_inv_step file _ hB st st1 sl _ hI0 hI5 hr hsl h1 h2 h5⟩,
        hp.2⟩)
    file.length
    ⟨0, 0, List.replicate (min (1024 * 1024) (pad8 file.length)) 0, bf, [], db⟩
    ⟨⟨by simp, fun _ => rfl, fun h2 => by dsimp only at h2; omega⟩,
      ⟨fun _ => by simp, fun h2 => by dsimp only at h2; omega,
        fun i c hic => by simp at hic, by simp⟩⟩
    (by simp)
  obtain ⟨st, h1, ⟨h2, h3⟩, h4⟩ := key
  exact ⟨st, h1, h2, h3, h4⟩

/-- Arithmetic of the chunk count: `k` buffers of `B = min 1048576 (pad8 n)`
bytes that just cover `n > 0` bytes are `ceil (n / 1048576)` buffers, and the
size of chunk `i` is the same counted in buffers or in MiB. -/
theorem chunk_count_eq (n k : Nat) (h : 0 < n)
    (hb1 : n ≤ k * min (1024 * 1024) (pad8 n))
    (hb2 : k * min (1024 * 1024) (pad8 n) < n + min (1024 * 1024) (pad8 n)) :
    k = (n + 1048575) / 1048576
      ∧ ∀ i, i < k → min (min (1024 * 1024) (pad8 n)) (n - i * min (1024 * 1024) (pad8 n))
          = min 1048576 (n - i * 1048576) := by
  have hp1 := le_pad8 n
  have hp2 := pad8_lt n
  have hp3 := pad8_mod n
  by_cases hn : n ≤ 1048576
  · have hB : min (1024 * 1024) (pad8 n) = pad8 n := by omega
    rw [hB] at hb1 hb2 ⊢
    have hk : k = 1 := by
      rcases k with _ | _ | j
      · simp at hb1; omega
      · rfl
      · have : 2 * pad8 n ≤ (j + 1 + 1) * pad8 n := Nat.mul_le_mul_right _ (by omega)
        omega
    subst hk
    refine ⟨by omega, ?_⟩
    intro i hi
    have hi0 : i = 0 := by omega
    subst hi0
    simp only [Nat.zero_mul, Nat.sub_zero]
    omega
  · have hB : min (1024 * 1024) (pad8 n) = 1048576 := by omega
    rw [hB] at hb1 hb2 ⊢
    refine ⟨by omega, ?_⟩
    intro i _
    rfl

/-- C5: the descriptor built by `import` for a file of `n > 0` bytes records
the size `n`, has `ceil (n / 1048576)` chunk entries, entry `i` records the
size `min 1048576 (n - i * 1048576)` and `ceil (p / 65536)` slice hashes for
its size `p` rounded up to a multiple of 8, and the recorded sizes add up to
`n`. -/
theorem import_descriptor_chunks (P : Prims) (svc : chunk_service) (name file : List Byte)
    (h : 0 < file.length) :
    ∃ res, import_file P svc name file = .ok res
      ∧ res.tf.size = file.length
      ∧ res.tf.chunks.length = (file.length + 1048575) / 1048576
      ∧ (∀ i c, res.tf.chunks[i]? = some c →
          c.size = min 1048576 (file.length - i * 1048576)
            ∧ c.slices.length = (pad8 c.size + 65535) / 65536)
      ∧ (res.tf.chunks.map chunk_data.size).sum = file.length := by
  obtain ⟨st, hloop, hI0, hI5, hend⟩ := import_loop_sizes P file h
    ((blowfish.start P (P.sha1_str (P.sha1 file))).reset_chain P) svc.m_local_db
  refine ⟨_, import_file_of_loop P svc name file h st hloop, rfl, ?_, ?_, ?_⟩
  all_goals simp only []
  all_goals obtain ⟨_, hb, hc, hd⟩ := hI5
  all_goals have hb := hb hend
  · exact (chunk_count_eq file.length st.chunks.length h hb.1 hb.2).1
  · intro i c hic
    have hi : i < st.chunks.length := by
      by_contra hcon
      rw [List.getElem?_eq_none (by omega)] at hic
      simp at hic
    obtain ⟨h1, h2⟩ := hc i c hic
    refine ⟨?_, h2⟩
    rw [h1]
    exact (chunk_count_eq file.length st.chunks.length h hb.1 hb.2).2 i hi
  · rw [hd, hI0.2.2 hend]

/-- The chunk list fixed by the size rules for a file of 2,621,440 bytes. -/
theorem chunks_of_2621440 (chunks : List chunk_data)
    (h3 : chunks.length = (2621440 + 1048575) / 1048576)
    (h4 : ∀ i c, chunks[i]? = some c →
      c.size = min 1048576 (2621440 - i * 1048576)
        ∧ c.slices.length = (pad8 c.size + 65535) / 65536) :
    chunks.map chunk_data.size = [1048576, 1048576, 524288]
      ∧ chunks.map (fun c => c.slices.length) = [16, 16, 8] := by
  have hlen : chunks.length = 3 := by rw [h3]
  match chunks, hlen, h4 with
  | [a, b, c], _, h4 =>
    obtain ⟨ha1, ha2⟩ := h4 0 a rfl
    obtain ⟨hb1, hb2⟩ := h4 1 b rfl
    obtain ⟨hc1, hc2⟩ := h4 2 c rfl
    have ha : a.size = 1048576 := by rw [ha1]; decide
    have hb : b.size = 1048576 := by rw [hb1]; decide
    have hc : c.size = 524288 := by rw [hc1]; decide
    rw [ha] at ha2
    rw [hb] at hb2
    rw [hc] at hc2
    have e1 : (pad8 1048576 + 65535) / 65536 = 16 := by decide
    have e2 : (pad8 524288 + 65535) / 65536 = 8 := by decide
    rw [e1] at ha2 hb2
    rw [e2] at hc2
    simp [ha, hb, hc, ha2, hb2, hc2]

/-- Witness for C5: a file of 2,621,440 zero bytes gets three chunk entries of
sizes 1048576, 1048576 and 524288 with 16, 16 and 8 slice hashes. -/
theorem import_descriptor_chunks_witness :
    0 < (List.replicate 2621440 (0 : Byte)).length
      ∧ ∃ res, import_file demo_prims demo_service [] (List.replicate 2621440 0) = .ok res
        ∧ res.tf.size = 2621440
        ∧ res.tf.chunks.map chunk_data.size = [1048576, 1048576, 524288]
        ∧ res.tf.chunks.map (fun c => c.slices.length) = [16, 16, 8] := by
  have hn : (List.replicate 2621440 (0 : Byte)).length = 2621440 := List.length_replicate _ _
  have hpos : 0 < (List.replicate 2621440 (0 : Byte)).length := by rw [hn]; omega
  obtain ⟨res, h1, h2, h3, h4, _⟩ :=
    import_descriptor_chunks demo_prims demo_service [] (List.replicate 2621440 0) hpos
  rw [hn] at h2 h3 h4
  exact ⟨hpos, res, h1, h2, chunks_of_2621440 res.tf.chunks h3 h4⟩

/-! ## Chunk service: export of what import stored -/

theorem export_loop_append (P : Prims) (db : chunk_db) (xs ys : List chunk_data) :
    ∀ st, export_loop P db (xs ++ ys) st
      = match export_loop P db xs st with
        | .error e => .error e
        | .ok st1 => export_loop P db ys st1 := by
  induction xs with
  | nil => intro st; rfl
  | cons x xs ih =>
    intro st
    simp only [List.cons_append, export_loop]
    cases export_chunk P db st x with
    | error e => rfl
    | ok st1 => exact ih st1

/-- A fetch into a buffer of the size of the stored bytes returns them. -/
theorem fetch_chunk_exact (db : chunk_db) (id : Digest) (data buf : List Byte)
    (h : db.lookup id = some data) (hl : buf.length = data.length) :
    chunk_db.fetch_chunk db id buf = some data := by
  unfold chunk_db.fetch_chunk
  rw [h, Option.map_some', hl, List.take_length, List.drop_of_length_le (by omega)]
  simp

/-- The cipher assumption on the cipher object: decrypting what the object
just encrypted, from the same chain, gives the plain buffer and the same
object as after the encryption. -/
theorem blowfish_decrypt_encrypt (P : Prims) (hc : CipherOk P) (bf : blowfish)
    (buf : List Byte) (h : buf.length % 8 = 0) :
    bf.decrypt P (bf.encrypt P buf).1 = (buf, (bf.encrypt P buf).2) := by
  unfold blowfish.decrypt blowfish.encrypt
  simp only [hc bf.key bf.chain buf h]

theorem plain_chunk_length (file : List Byte) (r B : Nat) :
    (plain_chunk file r B).length = pad8 (min (file.length - r) B) := by
  unfold plain_chunk
  have := le_pad8 (min (file.length - r) B)
  simp only [List.length_append, List.length_take, List.length_drop, List.length_replicate]
  omega

theorem plain_chunk_take (file : List Byte) (r B : Nat) :
    (plain_chunk file r B).take (min (file.length - r) B)
      = (file.drop r).take (min (file.length - r) B) := by
  unfold plain_chunk
  apply List.take_left'
  simp only [List.length_take, List.length_drop]
  omega

/-- Writing the next bytes of the file after the part already written. -/
theorem write_at_next (file : List Byte) (pos c : Nat) (h : pos + c ≤ file.length) :
    write_at (file.take pos ++ List.replicate (file.length - pos) 0) pos
        ((file.drop pos).take c)
      = file.take (pos + c) ++ List.replicate (file.length - (pos + c)) 0 := by
  have hl : (file.take pos).length = pos := by rw [List.length_take]; omega
  have hd : ((file.drop pos).take c).length = c := by
    rw [List.length_take, List.length_drop]; omega
  unfold write_at
  rw [hd, List.take_left' hl, List.take_add]
  congr 1
  rw [List.drop_append_eq_append_drop, hl, List.drop_of_length_le (by omega), List.nil_append,
    List.drop_replicate]
  congr 1
  omega

/-- Exporting the chunk that `import` made at offset `pos`: with the cipher
where the import had it and the encrypted bytes in the store, the pass writes
the next bytes of the file and leaves the cipher where the import left it. -/
theorem export_chunk_imported (P : Prims) (hc : CipherOk P) (db : chunk_db) (bf : blowfish)
    (file : List Byte) (pos B : Nat) (slices : List Nat) (hpos : pos ≤ file.length)
    (hdb : db.lookup (P.sha1 (bf.encrypt P (plain_chunk file pos B)).1)
      = some (bf.encrypt P (plain_chunk file pos B)).1) :
    export_chunk P db ⟨bf, pos, file.take pos ++ List.replicate (file.length - pos) 0⟩
        ⟨min (file.length - pos) B, P.sha1 (bf.encrypt P (plain_chunk file pos B)).1, slices⟩
      = .ok ⟨(bf.encrypt P (plain_chunk file pos B)).2, pos + min (file.length - pos) B,
          file.take (pos + min (file.length - pos) B)
            ++ List.replicate (file.length - (pos + min (file.length - pos) B)) 0⟩ := by
  have hle1 := Nat.min_le_left (file.length - pos) B
  have hpl := plain_chunk_length file pos B
  have hp8 : (plain_chunk file pos B).length % 8 = 0 := by rw [hpl]; exact pad8_mod _
  have hct : (bf.encrypt P (plain_chunk file pos B)).1.length
      = pad8 (min (file.length - pos) B) := by
    unfold blowfish.encrypt
    simp only [P.bf_encrypt_length, hpl]
  have hdec := blowfish_decrypt_encrypt P hc bf (plain_chunk file pos B) hp8
  have hreg : (file.take pos ++ List.replicate (file.length - pos) 0).length = file.length := by
    simp only [List.length_append, List.length_take, List.length_replicate]; omega
  have hw := write_at_next file pos (min (file.length - pos) B) (by omega)
  unfold export_chunk
  simp only [hreg]
  rw [if_neg (by omega)]
  by_cases hadj : pad8 (min (file.length - pos) B) ≠ min (file.length - pos) B
  · rw [if_pos hadj]
    rw [fetch_chunk_exact db _ _ _ hdb (by rw [List.length_replicate, hct])]
    simp only [hdec, plain_chunk_take, hw]
  · rw [if_neg hadj]
    have hadj2 : pad8 (min (file.length - pos) B) = min (file.length - pos) B := by
      simpa using hadj
    rw [fetch_chunk_exact db _ _ _ hdb (by
      rw [List.length_take, List.length_drop, hreg, hct]; omega)]
    have hplain : plain_chunk file pos B = (file.drop pos).take (min (file.length - pos) B) := by
      rw [← plain_chunk_take]
      exact (List.take_of_length_le (by rw [hpl, hadj2])).symm
    simp only [hdec]
    rw [hplain, hw]

theorem import_export_inv_step (P : Prims) (hc : CipherOk P) (file key : List Byte)
    (db0 : chunk_db) (B : Nat) (st st1 : import_state) (slices : List Nat)
    (hI0 : import_pos_inv file B st) (hI : import_export_inv P file key db0 st)
    (hr : st.r < file.length)
    (h3 : st1.bf = (st.bf.encrypt P (plain_chunk file st.r st.chunk.length)).2)
    (h4 : st1.chunks = st.chunks ++ [⟨min (file.length - st.r) st.chunk.length,
            P.sha1 (st.bf.encrypt P (plain_chunk file st.r st.chunk.length)).1, slices⟩])
    (h5 : st1.local_db = chunk_db.store_chunk st.local_db
            (P.sha1 (st.bf.encrypt P (plain_chunk file st.r st.chunk.length)).1)
            (st.bf.encrypt P (plain_chunk file st.r st.chunk.length)).1)
    (h2 : st1.in_pos = st.r + min (file.length - st.r) st.chunk.length) :
    import_export_inv P file key db0 st1 := by
  obtain ⟨hl, hp, _⟩ := hI0
  obtain ⟨hkey, added, hdb, hids, hexp⟩ := hI
  have hpos := hp hr
  refine ⟨by rw [h3]; exact hkey, (_, _) :: added, by rw [h5, hdb]; rfl, ?_, ?_⟩
  · intro e he
    rcases List.mem_cons.mp he with h | h
    · rw [h]
    · exact hids e h
  · intro db hdb2
    have hold := hexp db (fun e he => hdb2 e (List.mem_cons_of_mem _ he))
    have hnew := hdb2 _ (List.mem_cons_self _ _)
    rw [h4, export_loop_append, hold]
    simp only [export_loop]
    rw [hpos, export_chunk_imported P hc db st.bf file st.r st.chunk.length slices (by omega) hnew]
    simp only [h3, h2]

/-- The chunk loop of `import` ends, and the position and export invariants
hold at its end. -/
theorem import_loop_export (P : Prims) (hc : CipherOk P) (file : List Byte)
    (h : 0 < file.length) (key : List Byte) (db : chunk_db) :
    ∃ st, import_loop P file file.length
        ⟨0, 0, List.replicate (min (1024 * 1024) (pad8 file.length)) 0, ⟨key, P.chain0⟩, [], db⟩
          = some st
      ∧ import_pos_inv file (min (1024 * 1024) (pad8 file.length)) st
      ∧ import_export_inv P file key db st
      ∧ file.length ≤ st.r := by
  obtain ⟨hB, hB0⟩ := import_buffer_facts file.length h
  have key := import_loop_induction P file
    (fun st => import_pos_inv file (min (1024 * 1024) (pad8 file.length)) st
      ∧ import_export_inv P file key db st)
    (by
      intro st ⟨hI0, hI1⟩ hr
      have hl : st.chunk.length = min (1024 * 1024) (pad8 file.length) := hI0.1
      obtain ⟨st1, sl, hs, _, h1, h2, h3, h4, h5, h6⟩ :=
        import_step_eq P file st (by rw [hl]; exact hB) (hI0.2.1 hr)
      have hp := import_pos_inv_step file _ hB hB0 st st1 hI0 hr h1 h2 h3
      exact ⟨st1, hs,
        ⟨hp.1, import_export_inv_step P hc file key db _ st st1 sl hI0 hI1 hr h4 h5 h6 h2⟩,
        hp.2⟩)
    file.length
    ⟨0, 0, List.replicate (min (1024 * 1024) (pad8 file.length)) 0, ⟨key, P.chain0⟩, [], db⟩
    ⟨⟨by simp, fun _ => rfl, fun h2 => by dsimp only at h2; omega⟩,
      ⟨rfl, [], rfl, fun e he => by simp at he, fun db2 _ => by simp [export_loop]⟩⟩
    (by simp)
  obtain ⟨st, h1, ⟨h2, h3⟩, h4⟩ := key
  exact ⟨st, h1, h2, h3, h4⟩

/-- Entries filed under the digest of their bytes, without collisions, are
found by a lookup whatever else the store holds below them. -/
theorem lookup_added (P : Prims) (rest : chunk_db) :
    ∀ added : List (Digest × List Byte), (∀ e ∈ added, e.1 = P.sha1 e.2) →
      CollisionFree P (added.map Prod.snd) →
      ∀ e ∈ added, (added ++ rest).lookup e.1 = some e.2 := by
  intro added
  induction added with
  | nil => intro _ _ e he; simp at he
  | cons a t ih =>
    intro hkey hcf e he
    obtain ⟨a1, a2⟩ := a
    rw [List.cons_append, List.lookup_cons]
    by_cases hea : e.1 = a1
    · have hbeq : (e.1 == a1) = true := by simpa using hea
      rw [hbeq]
      have h1 : e.1 = P.sha1 e.2 := hkey e he
      have h2 : a1 = P.sha1 a2 := hkey (a1, a2) (List.mem_cons_self _ _)
      have := hcf a2 (by simp) e.2 (List.mem_map_of_mem Prod.snd he) (by rw [← h1, ← h2, hea])
      simp [this]
    · have hbeq : (e.1 == a1) = false := by simpa using hea
      rw [hbeq]
      have het : e ∈ t := by
        rcases List.mem_cons.mp he with h | h
        · exact absurd (by rw [h]) hea
        · exact h
      exact ih (fun x hx => hkey x (List.mem_cons_of_mem _ hx))
        (fun x hx y hy => hcf x (by simp at hx ⊢; right; exact hx) y
          (by simp at hy ⊢; right; exact hy)) e het

/-- Fetching a descriptor whose encrypted blob is in the local store under the
id: the blob decrypts, both checksum tests pass, and the descriptor is
returned. -/
theorem fetch_tornet_local (P : Prims) (hc : CipherOk P) (hk : CodecOk P)
    (svc : chunk_service) (tornet_id : Digest) (tf : tornet_file)
    (hblob : svc.m_local_db.lookup tornet_id = some (descriptor_blob P tf)) :
    fetch_tornet P svc tornet_id tf.checksum = .ok tf := by
  have hpad : (P.pack_tornet_file tf ++ List.replicate
      (pad8 (P.pack_tornet_file tf).length - (P.pack_tornet_file tf).length) 0).length % 8 = 0 := by
    have h1 := le_pad8 (P.pack_tornet_file tf).length
    have h2 := pad8_mod (P.pack_tornet_file tf).length
    simp only [List.length_append, List.length_replicate]
    omega
  have hdec := blowfish_decrypt_encrypt P hc (blowfish.start P (P.sha1_str tf.checksum)) _ hpad
  unfold fetch_tornet chunk_db.fetch_meta
  rw [hblob]
  simp only [Option.map_some']
  rw [fetch_chunk_exact _ _ _ _ hblob (by simp)]
  simp only []
  unfold descriptor_blob
  rw [hdec]
  simp only [(hk tf _).1, (hk tf _).2, ne_eq, not_true_eq_false, if_false]

/-- C1: for a non-empty file and any service state, under the cipher and codec
assumptions and with no digest collision among the blobs the call stores,
`import` succeeds, and `export_tornet` with the two digests it returned, run
against the local store it left, completes and writes the bytes of the file. -/
theorem export_import_roundtrip (P : Prims) (hc : CipherOk P) (hk : CodecOk P)
    (svc : chunk_service) (name file : List Byte) (hne : file ≠ [])
    (hcf : CollisionFree P ((import_stored P svc name file).map Prod.snd)) :
    ∃ res, import_file P svc name file = .ok res
      ∧ export_tornet P res.svc res.tornet_id res.checksum = .ok file := by
  have h : 0 < file.length := List.length_pos.mpr hne
  have h0 : file.length ≠ 0 := by omega
  obtain ⟨st, hloop, hI0, ⟨hkey, added, hdb, hids, hexp⟩, hend⟩ :=
    import_loop_export P hc file h (P.sha1_str (P.sha1 file)) svc.m_local_db
  have himp := import_file_of_loop P svc name file h st hloop
  have hbf : st.bf.reset_chain P = blowfish.start P (P.sha1_str (P.sha1 file)) := by
    unfold blowfish.reset_chain blowfish.start
    rw [hkey]
  rw [hbf] at himp
  have hblob : ((blowfish.start P (P.sha1_str (P.sha1 file))).encrypt P
      (P.pack_tornet_file ⟨name, file.length, P.sha1 file, st.chunks⟩
        ++ List.replicate
          (pad8 (P.pack_tornet_file ⟨name, file.length, P.sha1 file, st.chunks⟩).length
            - (P.pack_tornet_file ⟨name, file.length, P.sha1 file, st.chunks⟩).length) 0)).1
      = descriptor_blob P ⟨name, file.length, P.sha1 file, st.chunks⟩ := rfl
  rw [hblob] at himp
  -- the entries added by the call
  have hstored : import_stored P svc name file
      = (P.sha1 (descriptor_blob P ⟨name, file.length, P.sha1 file, st.chunks⟩),
          descriptor_blob P ⟨name, file.length, P.sha1 file, st.chunks⟩) :: added := by
    unfold import_stored
    rw [himp]
    simp only [chunk_db.store_chunk, hdb, List.length_cons, List.length_append]
    have e : added.length + svc.m_local_db.length + 1 - svc.m_local_db.length
        = ((P.sha1 (descriptor_blob P ⟨name, file.length, P.sha1 file, st.chunks⟩),
          descriptor_blob P ⟨name, file.length, P.sha1 file, st.chunks⟩) :: added).length := by
      simp only [List.length_cons]; omega
    rw [e, ← List.cons_append]
    exact List.take_left' rfl
  rw [hstored] at hcf
  have hlook := lookup_added P svc.m_local_db _
    (by
      intro e he
      rcases List.mem_cons.mp he with h1 | h1
      · rw [h1]
      · exact hids e h1) hcf
  refine ⟨_, himp, ?_⟩
  simp only []
  have hfetch := fetch_tornet_local P hc hk
    { svc with m_local_db := (chunk_db.store_chunk st.local_db
        (P.sha1 (descriptor_blob P ⟨name, file.length, P.sha1 file, st.chunks⟩))
        (descriptor_blob P ⟨name, file.length, P.sha1 file, st.chunks⟩)) }
    (P.sha1 (descriptor_blob P ⟨name, file.length, P.sha1 file, st.chunks⟩))
    ⟨name, file.length, P.sha1 file, st.chunks⟩
    (by
      simp only [chunk_db.store_chunk, hdb]
      exact hlook _ (List.mem_cons_self _ _))
  have hexp2 := hexp
    (chunk_db.store_chunk st.local_db
      (P.sha1 (descriptor_blob P ⟨name, file.length, P.sha1 file, st.chunks⟩))
      (descriptor_blob P ⟨name, file.length, P.sha1 file, st.chunks⟩))
    (by
      intro e he
      simp only [chunk_db.store_chunk, hdb]
      exact hlook e (List.mem_cons_of_mem _ he))
  have hpos : st.in_pos = file.length := hI0.2.2 hend
  unfold export_tornet
  simp only [] at hfetch
  rw [hfetch]
  simp only [created_file_size, h0, if_false]
  have hbf2 : (blowfish.start P (P.sha1_str (P.sha1 file))).reset_chain P
      = ⟨P.sha1_str (P.sha1 file), P.chain0⟩ := rfl
  rw [hbf2, hexp2]
  simp only [hpos, Nat.sub_self, List.replicate_zero, List.append_nil, List.take_length,
    ne_eq, not_true_eq_false, if_false]

/-! ## The concrete instance satisfies the assumptions -/

theorem demo_dec_enc_bytes (k : Nat) (buf : List Byte) :
    ∀ prev, demo_dec_bytes k prev (demo_enc_bytes k prev buf).1
      = (buf, (demo_enc_bytes k prev buf).2) := by
  induction buf with
  | nil => intro prev; rfl
  | cons p ps ih =>
    intro prev
    have hsub : ∀ a b c : Nat, a + b + c - b - c = a := by intro a b c; omega
    simp only [demo_enc_bytes, demo_dec_bytes, ih, hsub]

theorem demo_prims_cipher_ok : CipherOk demo_prims := by
  intro key chain buf _
  show ((demo_dec_bytes key.sum (chain.headD 0) (demo_enc_bytes key.sum (chain.headD 0) buf).1).1,
      [(demo_dec_bytes key.sum (chain.headD 0) (demo_enc_bytes key.sum (chain.headD 0) buf).1).2])
    = (buf, [(demo_enc_bytes key.sum (chain.headD 0) buf).2])
  rw [demo_dec_enc_bytes]

theorem demo_unpack_pack_chunks (cs : List chunk_data) :
    ∀ pad, demo_unpack_chunks cs.length (demo_pack_chunks cs ++ pad) = some cs := by
  induction cs with
  | nil => intro pad; rfl
  | cons c cs ih =>
    intro pad
    have hlen : ¬ (c.slices ++ (demo_pack_chunks cs ++ pad)).length < c.slices.length := by
      simp
    have hd : (c.slices ++ (demo_pack_chunks cs ++ pad)).drop c.slices.length
        = demo_pack_chunks cs ++ pad := List.drop_left' rfl
    have ht : (c.slices ++ (demo_pack_chunks cs ++ pad)).take c.slices.length = c.slices :=
      List.take_left' rfl
    have hp : demo_pack_chunks (c :: cs) ++ pad
        = c.size :: c.id :: c.slices.length :: (c.slices ++ (demo_pack_chunks cs ++ pad)) := by
      simp [demo_pack_chunks]
    rw [hp, List.length_cons]
    simp only [demo_unpack_chunks, hlen, if_false, hd, ih, ht]

theorem demo_prims_codec_ok : CodecOk demo_prims := by
  intro tf pad
  refine ⟨?_, rfl⟩
  show demo_unpack (demo_pack tf ++ pad) = some tf
  have hlen : ¬ (tf.name ++ (tf.size :: tf.chunks.length :: (demo_pack_chunks tf.chunks ++ pad))).length
      < tf.name.length := by simp
  have hd : (tf.name ++ (tf.size :: tf.chunks.length :: (demo_pack_chunks tf.chunks ++ pad))).drop
      tf.name.length = tf.size :: tf.chunks.length :: (demo_pack_chunks tf.chunks ++ pad) :=
    List.drop_left' rfl
  have ht : (tf.name ++ (tf.size :: tf.chunks.length :: (demo_pack_chunks tf.chunks ++ pad))).take
      tf.name.length = tf.name := List.take_left' rfl
  have hp : demo_pack tf ++ pad = tf.checksum :: tf.name.length
      :: (tf.name ++ (tf.size :: tf.chunks.length :: (demo_pack_chunks tf.chunks ++ pad))) := by
    simp [demo_pack]
  rw [hp]
  simp only [demo_unpack, hlen, if_false, hd, demo_unpack_pack_chunks, ht]

/-- Witness for C1: the one-byte file `0x41` named `a` under the concrete
primitives and a service with empty stores. -/
theorem export_import_roundtrip_witness :
    CipherOk demo_prims ∧ CodecOk demo_prims ∧ ([0x41] : List Byte) ≠ []
      ∧ CollisionFree demo_prims ((import_stored demo_prims demo_service [97] [0x41]).map Prod.snd)
      ∧ ∃ res, import_file demo_prims demo_service [97] [0x41] = .ok res
        ∧ export_tornet demo_prims res.svc res.tornet_id res.checksum = .ok [0x41] :=
  have hcf : CollisionFree demo_prims
      ((import_stored demo_prims demo_service [97] [0x41]).map Prod.snd) := by
    unfold CollisionFree
    decide
  ⟨demo_prims_cipher_ok, demo_prims_codec_ok, by decide, hcf,
    export_import_roundtrip demo_prims demo_prims_cipher_ok demo_prims_codec_ok demo_service
      [97] [0x41] (by decide) hcf⟩

/-! ## Chunk service: the final checksum test of export -/

/-- C6: when the descriptor is fetched and the chunk loop of `export_tornet`
has fetched and decrypted every chunk, leaving the output `st.region`, the
call fails with the file checksum error if the digest of the first
`tf.size` bytes of the output differs from the checksum of the caller, and
completes with that output if it equals it. -/
theorem export_tornet_final_check (P : Prims) (svc : chunk_service)
    (tornet_id checksum : Digest) (tf : tornet_file) (st : export_state)
    (hfetch : fetch_tornet P svc tornet_id checksum = .ok tf)
    (hloop : export_loop P svc.m_local_db tf.chunks
      ⟨(blowfish.start P (P.sha1_str checksum)).reset_chain P, 0,
        List.replicate (created_file_size tf.size) 0⟩ = .ok st) :
    (P.sha1 (st.region.take tf.size) ≠ checksum →
        export_tornet P svc tornet_id checksum = .error .file_checksum_mismatch)
      ∧ (P.sha1 (st.region.take tf.size) = checksum →
        export_tornet P svc tornet_id checksum = .ok st.region) := by
  unfold export_tornet
  simp only [hfetch, hloop]
  constructor
  · intro h
    rw [if_pos h]
  · intro h
    rw [if_neg (by simpa using h)]

/-- Witness for C6: on the service left by the import of the one-byte file the
output digest equals the checksum and the export completes; after one byte of
the stored chunk is changed the output digest differs and the export fails. -/
theorem export_tornet_final_check_witness :
    (fetch_tornet demo_prims demo_imported 108 282 = .ok demo_tf
      ∧ export_loop demo_prims demo_imported.m_local_db demo_tf.chunks
          ⟨(blowfish.start demo_prims (demo_prims.sha1_str 282)).reset_chain demo_prims, 0,
            List.replicate (created_file_size demo_tf.size) 0⟩
        = .ok ⟨⟨[282], [2321]⟩, 1, [0x41]⟩
      ∧ export_tornet demo_prims demo_imported 108 282 = .ok [0x41])
    ∧ (fetch_tornet demo_prims demo_corrupted 108 282 = .ok demo_tf
      ∧ export_loop demo_prims demo_corrupted.m_local_db demo_tf.chunks
          ⟨(blowfish.start demo_prims (demo_prims.sha1_str 282)).reset_chain demo_prims, 0,
            List.replicate (created_file_size demo_tf.size) 0⟩
        = .ok ⟨⟨[282], [2321]⟩, 1, [0x42]⟩
      ∧ export_tornet demo_prims demo_corrupted 108 282 = .error .file_checksum_mismatch) :=
  ⟨⟨by decide, by decide,
      (export_tornet_final_check demo_prims demo_imported 108 282 demo_tf
        ⟨⟨[282], [2321]⟩, 1, [0x41]⟩ (by decide) (by decide)).2 (by decide)⟩,
    ⟨by decide, by decide,
      (export_tornet_final_check demo_prims demo_corrupted 108 282 demo_tf
        ⟨⟨[282], [2321]⟩, 1, [0x42]⟩ (by decide) (by decide)).1 (by decide)⟩⟩

/-! ## Chunk service: publishing a descriptor -/

theorem demo_import_result :
    import_file demo_prims demo_service [97] [0x41]
      = .ok ⟨108, 282, demo_tf, demo_pack demo_tf, demo_imported⟩ := by
  decide

theorem publish_db_fetch_store_same (db : publish_db) (id : Digest) (r : publish_record) :
    publish_db.fetch (publish_db.store db id r) id = some r := by
  unfold publish_db.fetch
  induction db with
  | nil => simp [publish_db.store, List.lookup]
  | cons e rest ih =>
    obtain ⟨k, v⟩ := e
    by_cases h : k = id
    · simp [publish_db.store, h, List.lookup]
    · have hb : (id == k) = false := by simpa using fun e => h e.symm
      simp only [publish_db.store, h, if_false, List.lookup_cons, hb]
      exact ih

theorem publish_db_fetch_store_other (db : publish_db) (id id2 : Digest) (r : publish_record)
    (hne : id2 ≠ id) :
    publish_db.fetch (publish_db.store db id r) id2 = publish_db.fetch db id2 := by
  unfold publish_db.fetch
  induction db with
  | nil =>
    have hb : (id2 == id) = false := by simpa using hne
    simp [publish_db.store, List.lookup, hb]
  | cons e rest ih =>
    obtain ⟨k, v⟩ := e
    by_cases h : k = id
    · subst h
      have hb : (id2 == k) = false := by simpa using hne
      simp [publish_db.store, List.lookup, hb]
    · simp only [publish_db.store, h, if_false, List.lookup_cons]
      cases (id2 == k) with
      | true => rfl
      | false => exact ih

theorem publish_db_store_same (db : publish_db) (id : Digest) (r : publish_record)
    (h : publish_db.fetch db id = some r) : publish_db.store db id r = db := by
  unfold publish_db.fetch at h
  induction db with
  | nil => simp [List.lookup] at h
  | cons e rest ih =>
    obtain ⟨k, v⟩ := e
    by_cases hk : k = id
    · subst hk
      simp only [List.lookup_cons, beq_self_eq_true, Option.some.injEq] at h
      simp [publish_db.store, h]
    · have hb : (id == k) = false := by simpa using fun e => hk e.symm
      simp only [List.lookup_cons, hb] at h
      simp only [publish_db.store, hk, if_false, ih h]

theorem published_store (rep : Nat) (db : publish_db) (id id2 : Digest) (r : publish_record)
    (h : published rep db id2) :
    published rep
      (publish_db.store db id { r with desired_host_count := rep, next_update := 0 }) id2 := by
  by_cases hne : id2 = id
  · subst hne
    exact ⟨_, publish_db_fetch_store_same db id2 _, rfl, rfl⟩
  · obtain ⟨r2, h1, h2, h3⟩ := h
    exact ⟨r2, by rw [publish_db_fetch_store_other db id id2 _ hne]; exact h1, h2, h3⟩

theorem published_store_self (rep : Nat) (db : publish_db) (id : Digest) (r : publish_record) :
    published rep
      (publish_db.store db id { r with desired_host_count := rep, next_update := 0 }) id :=
  ⟨_, publish_db_fetch_store_same db id _, rfl, rfl⟩

/-- The chunk loop of `publish_tornet` keeps published ids published and
publishes the id of every chunk entry. -/
theorem publish_chunks_published (P : Prims) (rep : Nat) (cs : List chunk_data) :
    ∀ db, (∀ id, published rep db id → published rep (publish_chunks P rep cs db) id)
      ∧ ∀ c ∈ cs, published rep (publish_chunks P rep cs db) c.id := by
  induction cs with
  | nil => intro db; exact ⟨fun _ h => h, fun c hc => by simp at hc⟩
  | cons c cs ih =>
    intro db
    simp only [publish_chunks]
    constructor
    · intro id h
      exact (ih _).1 id (published_store rep db c.id id _ h)
    · intro c2 hc2
      rcases List.mem_cons.mp hc2 with h | h
      · rw [h]
        exact (ih _).1 c.id (published_store_self rep db c.id _)
      · exact (ih _).2 c2 h

/-- The chunk loop of `publish_tornet` leaves a store unchanged in which every
chunk id is already published with the same host count. -/
theorem publish_chunks_fixed (P : Prims) (rep : Nat) (cs : List chunk_data) :
    ∀ db, (∀ c ∈ cs, published rep db c.id) → publish_chunks P rep cs db = db := by
  induction cs with
  | nil => intro db _; rfl
  | cons c cs ih =>
    intro db h
    obtain ⟨r, h1, h2, h3⟩ := h c (List.mem_cons_self _ _)
    have hr : ({ r with desired_host_count := rep, next_update := 0 } : publish_record) = r := by
      cases r
      simp only [publish_record.mk.injEq] at h2 h3 ⊢
      simp_all
    simp only [publish_chunks, h1, Option.getD_some, hr, publish_db_store_same db c.id r h1]
    exact ih db (fun c2 hc2 => h c2 (List.mem_cons_of_mem _ hc2))

theorem publish_db_store_keys (db : publish_db) (id : Digest) (r : publish_record) (k : Digest) :
    k ∈ (publish_db.store db id r).map Prod.fst ↔ k = id ∨ k ∈ db.map Prod.fst := by
  induction db with
  | nil => simp [publish_db.store]
  | cons e rest ih =>
    by_cases h : e.1 = id
    · simp only [publish_db.store, h, if_true, List.map_cons, List.mem_cons]
      constructor
      · intro h1; rcases h1 with h1 | h1
        · left; exact h1
        · right; right; exact h1
      · intro h1; rcases h1 with h1 | h1 | h1
        · left; exact h1
        · left; exact h1
        · right; exact h1
    · simp only [publish_db.store, h, if_false, List.map_cons, List.mem_cons, ih]
      constructor
      · intro h1; rcases h1 with h1 | h1 | h1
        · right; left; exact h1
        · left; exact h1
        · right; right; exact h1
      · intro h1; rcases h1 with h1 | h1 | h1
        · right; left; exact h1
        · left; exact h1
        · right; right; exact h1

theorem publish_db_store_nodup (db : publish_db) (id : Digest) (r : publish_record)
    (h : (db.map Prod.fst).Nodup) : ((publish_db.store db id r).map Prod.fst).Nodup := by
  induction db with
  | nil => simp [publish_db.store]
  | cons e rest ih =>
    rw [List.map_cons, List.nodup_cons] at h
    by_cases hk : e.1 = id
    · simp only [publish_db.store, hk, if_true, List.map_cons, List.nodup_cons]
      exact ⟨by rw [← hk]; exact h.1, h.2⟩
    · simp only [publish_db.store, hk, if_false, List.map_cons, List.nodup_cons]
      refine ⟨?_, ih h.2⟩
      rw [publish_db_store_keys]
      intro h1
      rcases h1 with h1 | h1
      · exact hk h1
      · exact h.1 h1

theorem publish_chunks_nodup (P : Prims) (rep : Nat) (cs : List chunk_data) :
    ∀ db : publish_db, (db.map Prod.fst).Nodup →
      ((publish_chunks P rep cs db).map Prod.fst).Nodup := by
  induction cs with
  | nil => intro db h; exact h
  | cons c cs ih =>
    intro db h
    simp only [publish_chunks]
    exact ih _ (publish_db_store_nodup db c.id _ h)

/-- In a store with one record an id, the records filed under an id are the
one record a fetch returns. -/
theorem publish_db_filter_of_fetch (db : publish_db) (id : Digest) (r : publish_record)
    (hnd : (db.map Prod.fst).Nodup) (h : publish_db.fetch db id = some r) :
    db.filter (fun e => decide (e.1 = id)) = [(id, r)] := by
  unfold publish_db.fetch at h
  induction db with
  | nil => simp [List.lookup] at h
  | cons e rest ih =>
    obtain ⟨k, v⟩ := e
    rw [List.map_cons, List.nodup_cons] at hnd
    by_cases hk : k = id
    · subst hk
      simp only [List.lookup_cons, beq_self_eq_true, Option.some.injEq] at h
      subst h
      have hrest : rest.filter (fun e => decide (e.1 = k)) = [] := by
        rw [List.filter_eq_nil_iff]
        intro a ha hak
        have : a.1 = k := by simpa using hak
        have hm := List.mem_map_of_mem Prod.fst ha
        rw [this] at hm
        exact hnd.1 hm
      simp [List.filter_cons, hrest]
    · have hb : (id == k) = false := by simpa using fun e => hk e.symm
      simp only [List.lookup_cons, hb] at h
      simp only [List.filter_cons, hk, decide_False, Bool.false_eq_true, if_false]
      exact ih hnd.2 h

/-- A change of the publish store does not change what `fetch_tornet` returns. -/
theorem fetch_tornet_pub_db (P : Prims) (svc : chunk_service) (db : publish_db)
    (tornet_id checksum : Digest) :
    fetch_tornet P { svc with m_pub_db := db } tornet_id checksum
      = fetch_tornet P svc tornet_id checksum := rfl

/-- C7: when the descriptor can be fetched and the publish store holds one
record an id, a second call of `publish_tornet` with the same arguments leaves
the service as the first call left it, and after the first call the publish
store holds, for the tornet id and for the id of every chunk of the
descriptor, exactly one record, whose desired host count is `rep`. -/
theorem publish_tornet_idempotent (P : Prims) (svc : chunk_service) (tid cs : Digest)
    (rep : Nat) (tf : tornet_file)
    (hfetch : fetch_tornet P svc tid cs = .ok tf)
    (hnd : (svc.m_pub_db.map Prod.fst).Nodup) :
    ∃ svc1, publish_tornet P svc tid cs rep = .ok svc1
      ∧ publish_tornet P svc1 tid cs rep = .ok svc1
      ∧ ∀ id ∈ tid :: tf.chunks.map chunk_data.id,
          ∃ r, r.desired_host_count = rep
            ∧ svc1.m_pub_db.filter (fun e => decide (e.1 = id)) = [(id, r)] := by
  have hpub : ∀ id ∈ tid :: tf.chunks.map chunk_data.id,
      published rep (publish_db.store (publish_chunks P rep tf.chunks svc.m_pub_db) tid
        { (publish_db.fetch (publish_chunks P rep tf.chunks svc.m_pub_db) tid).getD P.new_record
          with desired_host_count := rep, next_update := 0 }) id := by
    intro id hid
    rcases List.mem_cons.mp hid with h | h
    · rw [h]; exact published_store_self rep _ tid _
    · obtain ⟨c, hc, hcid⟩ := List.mem_map.mp h
      rw [← hcid]
      exact published_store rep _ tid c.id _
        ((publish_chunks_published P rep tf.chunks svc.m_pub_db).2 c hc)
  have hnd2 := publish_db_store_nodup _ tid
    { (publish_db.fetch (publish_chunks P rep tf.chunks svc.m_pub_db) tid).getD P.new_record
      with desired_host_count := rep, next_update := 0 }
    (publish_chunks_nodup P rep tf.chunks svc.m_pub_db hnd)
  refine ⟨_, by unfold publish_tornet; rw [hfetch], ?_, ?_⟩
  · unfold publish_tornet
    rw [fetch_tornet_pub_db, hfetch]
    simp only []
    rw [publish_chunks_fixed P rep tf.chunks _ (fun c hc =>
      hpub c.id (List.mem_cons_of_mem _ (List.mem_map_of_mem chunk_data.id hc)))]
    obtain ⟨r, h1, h2, h3⟩ := hpub tid (List.mem_cons_self _ _)
    have hr : ({ r with desired_host_count := rep, next_update := 0 } : publish_record) = r := by
      cases r
      simp only [publish_record.mk.injEq] at h2 h3 ⊢
      simp_all
    rw [h1, Option.getD_some, hr, publish_db_store_same _ tid r h1]
  · intro id hid
    obtain ⟨r, h1, h2, _⟩ := hpub id hid
    exact ⟨r, h2, publish_db_filter_of_fetch _ id r hnd2 h1⟩

/-- Witness for C7: publishing the imported one-byte file with 3 replicas,
twice, leaves one record for the tornet id 108 and one for the chunk id 855. -/
theorem publish_tornet_idempotent_witness :
    fetch_tornet demo_prims demo_imported 108 282 = .ok demo_tf
      ∧ (demo_imported.m_pub_db.map Prod.fst).Nodup
      ∧ ∃ svc1, publish_tornet demo_prims demo_imported 108 282 3 = .ok svc1
          ∧ publish_tornet demo_prims svc1 108 282 3 = .ok svc1
          ∧ ∀ id ∈ 108 :: demo_tf.chunks.map chunk_data.id,
              ∃ r, r.desired_host_count = 3
                ∧ svc1.m_pub_db.filter (fun e => decide (e.1 = id)) = [(id, r)] :=
  ⟨by decide, by decide,
    publish_tornet_idempotent demo_prims demo_imported 108 282 3 demo_tf (by decide) (by decide)⟩

/-! ## Chunk service: where a descriptor is fetched from -/

/-- C9 (as stated, at a failing input): the encrypted blob of `demo_tf` for the
checksum 282 is in the cache store under the id 108 and not in the local
store, and `fetch_tornet` fails. -/
theorem fetch_tornet_ignores_cache :
    demo_cached.m_cache_db.lookup 108 = some (descriptor_blob demo_prims demo_tf)
      ∧ demo_tf.checksum = 282
      ∧ demo_cached.m_local_db.lookup 108 = none
      ∧ fetch_tornet demo_prims demo_cached 108 282 = .error .unknown_chunk := by
  decide

/-- C9 (amended): under the cipher and codec assumptions, `fetch_tornet`
returns the descriptor when its encrypted blob for the checksum is in the
local store under the tornet id, and fails with the unknown chunk error when
the local store has nothing under the tornet id, whatever the cache store
holds. -/
theorem fetch_tornet_local_store (P : Prims) (hc : CipherOk P) (hk : CodecOk P)
    (svc : chunk_service) (tornet_id : Digest) (tf : tornet_file) :
    (svc.m_local_db.lookup tornet_id = some (descriptor_blob P tf) →
        fetch_tornet P svc tornet_id tf.checksum = .ok tf)
      ∧ (svc.m_local_db.lookup tornet_id = none →
        ∀ checksum, fetch_tornet P svc tornet_id checksum = .error .unknown_chunk) := by
  refine ⟨fetch_tornet_local P hc hk svc tornet_id tf, ?_⟩
  intro h checksum
  unfold fetch_tornet chunk_db.fetch_meta
  rw [h]
  rfl

/-- Witness for C9 (amended): the blob in the local store of `demo_imported`
is fetched; the same blob in the cache store of `demo_cached` is not. -/
theorem fetch_tornet_local_store_witness :
    CipherOk demo_prims ∧ CodecOk demo_prims
      ∧ fetch_tornet demo_prims demo_imported 108 demo_tf.checksum = .ok demo_tf
      ∧ ∀ checksum, fetch_tornet demo_prims demo_cached 108 checksum = .error .unknown_chunk :=
  ⟨demo_prims_cipher_ok, demo_prims_codec_ok,
    (fetch_tornet_local_store demo_prims demo_prims_cipher_ok demo_prims_codec_ok
      demo_imported 108 demo_tf).1 (by decide),
    (fetch_tornet_local_store demo_prims demo_prims_cipher_ok demo_prims_codec_ok
      demo_cached 108 demo_tf).2 (by decide)⟩

/-! ## Chunk service: one pass of the publish loop -/

/-- The record a pass of the publish loop writes back: the record it fetched
with `next_update` set to the second clock reading plus 60 seconds, every
other field as fetched. -/
theorem publish_loop_body_record (env : publish_env) (svc : chunk_service)
    (out : publish_outcome) (chunk_id : Digest) (next_pub : publish_record)
    (hnext : publish_db.fetch_next svc.m_pub_db = some (chunk_id, next_pub))
    (hout : publish_loop_body env svc = .ok out) :
    publish_db.fetch out.svc.m_pub_db chunk_id
      = some { next_pub with next_update := env.now_update + 60000000 } := by
  unfold publish_loop_body at hout
  rw [hnext] at hout
  simp only [] at hout
  split at hout
  · exact absurd hout (by simp)
  · simp only [Except.ok.injEq] at hout
    rw [← hout]
    exact publish_db_fetch_store_same _ _ _

/-- C10 (at a failing input): the record of chunk 855 says 5 hosts were
observed.  With no known peers the chunk search reports 0 hosting nodes; the
pass raises no error and reschedules the record to the clock reading plus 60
seconds, and the record written back still says 5 hosts, not 0.  With one
peer that accepts the chunk the pass uploads to it, and the record written
back still says 5 hosts, not 1. -/
theorem publish_loop_body_keeps_host_count :
    (demo_env.search 855 6).hosting_nodes.length = 0
      ∧ publish_loop_body demo_env demo_publishing
        = .ok ⟨{ demo_publishing with m_pub_db := [(855, ⟨2000 + 60000000, 5, 3⟩)] }, 0, none⟩
      ∧ (demo_env_peer.search 855 6).hosting_nodes.length = 0
      ∧ publish_loop_body demo_env_peer demo_publishing
        = .ok ⟨{ demo_publishing with m_pub_db := [(855, ⟨2000 + 60000000, 5, 3⟩)] }, 0,
            some (7, [347, 629, 911, 1193, 1475, 1757, 2039, 2321])⟩ := by
  decide

/-! ## Name chain: what the nonce search leaves in the transaction -/

/-- The loop of `find_nonce` started at nonce `i` with the flag never set and
fuel for the rest of the range: it ends with the transaction at a nonce `n`
between `i` and `end_`, no nonce from `i` up to `n` is valid, and `n` is valid
when it is below `end_`. -/
theorem find_nonce_loop_least {β : Type} (C : ChainPrims β) (start end_ : Nat)
    (thresh : Digest) (done : Nat → Bool) (hdone : ∀ k, done k = false)
    (tran : name_trx β) :
    ∀ (fuel i k : Nat), i ≤ end_ → end_ - i ≤ fuel →
      ∃ n, i ≤ n ∧ n ≤ end_
        ∧ find_nonce_loop C start end_ thresh done fuel k (tran.set_nonce i)
            = some (start, tran.set_nonce n)
        ∧ (∀ m, i ≤ m → m < n → validate_trx_hash C (tran.set_nonce m) thresh = false)
        ∧ (n < end_ → validate_trx_hash C (tran.set_nonce n) thresh = true) := by
  intro fuel
  induction fuel with
  | zero =>
    intro i k hi hf
    have hie : i = end_ := by omega
    subst hie
    refine ⟨i, Nat.le_refl _, Nat.le_refl _, ?_, fun m h1 h2 => by omega, fun h => by omega⟩
    simp [find_nonce_loop, name_trx.set_nonce]
  | succ fuel ih =>
    intro i k hi hf
    by_cases hlt : i < end_
    · by_cases hv : validate_trx_hash C (tran.set_nonce i) thresh = true
      · refine ⟨i, Nat.le_refl _, hi, ?_, fun m h1 h2 => by omega, fun _ => hv⟩
        have hn : (tran.set_nonce i).head.nonce = i := rfl
        simp [find_nonce_loop, hdone, hn, hlt, hv]
      · obtain ⟨n, h1, h2, h3, h4, h5⟩ := ih (i + 1) (k + 1) (by omega) (by omega)
        refine ⟨n, by omega, h2, ?_, ?_, h5⟩
        · have hn : (tran.set_nonce i).head.nonce = i := rfl
          have hs : (tran.set_nonce i).set_nonce (i + 1) = tran.set_nonce (i + 1) := rfl
          simp only [find_nonce_loop, hdone, hn, hlt, hv, hs, Bool.not_false, decide_True,
            Bool.and_self, if_true, if_false, Bool.false_eq_true]
          exact h3
        · intro m hm1 hm2
          by_cases hmi : m = i
          · subst hmi; simpa using hv
          · exact h4 m (by omega) hm2
    · have hie : i = end_ := by omega
      subst hie
      refine ⟨i, Nat.le_refl _, Nat.le_refl _, ?_, fun m h1 h2 => by omega, fun h => by omega⟩
      simp [find_nonce_loop, name_trx.set_nonce]

/-- C12: with `start ≤ end_` and the flag never set, `find_nonce` returns,
and the transaction it leaves differs from the one it was given in
`head.nonce` only.  If some nonce of the range validates, the nonce left is
the least such nonce and the transaction left validates; otherwise the nonce
left is `end_`. -/
theorem find_nonce_leaves_least_nonce {β : Type} (C : ChainPrims β) (tran : name_trx β)
    (start end_ : Nat) (thresh : Digest) (done : Nat → Bool)
    (hse : start ≤ end_) (hdone : ∀ k, done k = false) :
    ∃ v t, find_nonce C tran start end_ thresh done = some (v, t)
      ∧ t.body = tran.body ∧ t.head.base = tran.head.base
      ∧ t.head.type = tran.head.type ∧ t.head.signature = tran.head.signature
      ∧ ((∃ m, start ≤ m ∧ m < end_ ∧ validate_trx_hash C (tran.set_nonce m) thresh = true) →
          start ≤ t.head.nonce ∧ t.head.nonce < end_
            ∧ validate_trx_hash C t thresh = true
            ∧ ∀ m, start ≤ m → m < t.head.nonce →
                validate_trx_hash C (tran.set_nonce m) thresh = false)
      ∧ ((¬ ∃ m, start ≤ m ∧ m < end_ ∧ validate_trx_hash C (tran.set_nonce m) thresh = true) →
          t.head.nonce = end_) := by
  obtain ⟨n, h1, h2, h3, h4, h5⟩ :=
    find_nonce_loop_least C start end_ thresh done hdone tran (end_ - start) start 0 hse
      (Nat.le_refl _)
  refine ⟨start, tran.set_nonce n, h3, rfl, rfl, rfl, rfl, ?_, ?_⟩
  · rintro ⟨m, hm1, hm2, hm3⟩
    have hn : n < end_ := by
      by_contra hcon
      have hm4 := h4 m hm1 (by omega)
      rw [hm3] at hm4
      exact absurd hm4 (by simp)
    exact ⟨h1, hn, h5 hn, h4⟩
  · intro hnone
    show n = end_
    by_contra hcon
    exact hnone ⟨n, h1, by omega, h5 (by omega)⟩

/-- Witness for C12: the nonces 0 to 4 of `demo_trx` with threshold 100; the
search leaves the nonce 3. -/
theorem find_nonce_leaves_least_nonce_witness :
    (0 : Nat) ≤ 5 ∧ (∀ k : Nat, (fun _ : Nat => false) k = false)
      ∧ ∃ v t, find_nonce demo_chain demo_trx 0 5 100 (fun _ => false) = some (v, t)
        ∧ t.body = demo_trx.body ∧ t.head.base = demo_trx.head.base
        ∧ t.head.type = demo_trx.head.type ∧ t.head.signature = demo_trx.head.signature
        ∧ ((∃ m, 0 ≤ m ∧ m < 5
              ∧ validate_trx_hash demo_chain (demo_trx.set_nonce m) 100 = true) →
            0 ≤ t.head.nonce ∧ t.head.nonce < 5
              ∧ validate_trx_hash demo_chain t 100 = true
              ∧ ∀ m, 0 ≤ m → m < t.head.nonce →
                  validate_trx_hash demo_chain (demo_trx.set_nonce m) 100 = false)
        ∧ ((¬ ∃ m, 0 ≤ m ∧ m < 5
              ∧ validate_trx_hash demo_chain (demo_trx.set_nonce m) 100 = true) →
            t.head.nonce = 5) :=
  ⟨by decide, fun _ => rfl,
    find_nonce_leaves_least_nonce demo_chain demo_trx 0 5 100 (fun _ => false)
      (by decide) (fun _ => rfl)⟩

/-! ## Chunk service: the peer a publish pass uploads to -/

/-- The peer a pass of the publish loop uploads to is the first entry of the
near nodes of the search whose node id is not the own id; whether the entry
is among the hosting nodes is not looked at. -/
theorem publish_loop_body_uploaded (env : publish_env) (svc : chunk_service)
    (out : publish_outcome) (chunk_id : Digest) (next_pub : publish_record)
    (peer : Digest) (data : List Byte)
    (hnext : publish_db.fetch_next svc.m_pub_db = some (chunk_id, next_pub))
    (hout : publish_loop_body env svc = .ok out)
    (hup : out.uploaded = some (peer, data)) :
    ∃ dist, skip_self env.node_id
        (env.search chunk_id (next_pub.desired_host_count * 2)).current_results
      = some (dist, peer) := by
  unfold publish_loop_body at hout
  rw [hnext] at hout
  simp only [] at hout
  split at hout
  · exact absurd hout (by simp)
  · rename_i sent hsent
    simp only [Except.ok.injEq] at hout
    rw [← hout] at hup
    simp only [] at hup
    subst hup
    split at hsent
    · split at hsent
      · exact absurd hsent (by simp)
      · rename_i itr hitr
        split at hsent
        · split at hsent
          · exact absurd hsent (by simp)
          · split at hsent
            · exact absurd hsent (by simp)
            · simp only [Except.ok.injEq, Option.some.injEq, Prod.mk.injEq] at hsent
              exact ⟨itr.1, by rw [hitr, ← hsent.1]⟩
        · exact absurd hsent (by simp)
    · exact absurd hsent (by simp)

/-- C11 (at a failing input): the search for chunk 855 reports one hosting
node, fewer than the 3 desired, and the near nodes 7 (distance 2) and 9
(distance 3); node 7 is the hosting node.  The closest near node that is
neither the own node nor a hosting node is 9, and the pass uploads the chunk
to node 7. -/
theorem publish_loop_body_uploads_to_hosting_node :
    (demo_env_hosted.search 855 6).hosting_nodes = [(2, 7)]
      ∧ (demo_env_hosted.search 855 6).current_results = [(2, 7), (3, 9)]
      ∧ (demo_env_hosted.search 855 6).hosting_nodes.length < 3
      ∧ ((demo_env_hosted.search 855 6).current_results.filter
          (fun e => decide (e.2 ≠ demo_env_hosted.node_id)
            && decide (e ∉ (demo_env_hosted.search 855 6).hosting_nodes))).head? = some (3, 9)
      ∧ publish_loop_body demo_env_hosted demo_publishing
        = .ok ⟨{ demo_publishing with m_pub_db := [(855, ⟨2000 + 60000000, 5, 3⟩)] }, 0,
            some (7, [347, 629, 911, 1193, 1475, 1757, 2039, 2321])⟩ := by
  decide

end Tornet
